import Mathlib

/-!
Shallow embedding of the indexing engine of lonvia/Nominatim
(`nominatim/indexer/*.py`, `nominatim/tokenizer/legacy_tokenizer.py`,
`nominatim/tokenizer/legacy_icu_tokenizer.py`) together with proofs about
the claims of the specification.

Database interaction is modelled abstractly: every stored procedure or SQL
query whose result the Python code consumes becomes a function supplied by
an environment record, and the side effects of issued queries are collected
in explicit effect lists so that theorems can count the queries a code path
issues.
-/

namespace Nominatim

/-! ### Python `OrderedDict` primitives

`nominatim.tokenizer.legacy_tokenizer._LRU` stores its entries in a
`collections.OrderedDict`.  We model the ordered dictionary as an
association list whose head is the oldest entry; the three operations the
tokenizer uses are `.get`, `.move_to_end` (remove and re-append at the
back) and `popitem(last=False)` (drop the front), plus plain assignment
`d[k] = v`, which updates an existing key *in place* and otherwise appends
at the back. -/

variable {K : Type} [DecidableEq K] {V : Type}

/-- `d.get(key)`: first value stored under `key`, if any. -/
def odGet : List (K × V) → K → Option V
  | [], _ => none
  | (k, v) :: rest, key => if k = key then some v else odGet rest key

/-- `d[key] = v`: replace the value in place when the key exists,
otherwise append the new entry at the back. -/
def odSet : List (K × V) → K → V → List (K × V)
  | [], key, v => [(key, v)]
  | (k, w) :: rest, key, v =>
      if k = key then (k, v) :: rest else (k, w) :: odSet rest key v

/-- `d.move_to_end(key)`: remove the entry for `key` and append it at the
back (no-op when the key is absent). -/
def odMoveToEnd (l : List (K × V)) (key : K) : List (K × V) :=
  match odGet l key with
  | none => l
  | some v => (l.eraseP (fun e => e.1 = key)) ++ [(key, v)]

theorem odGet_mem (l : List (K × V)) (k : K) (v : V) (h : odGet l k = some v) :
    (k, v) ∈ l := by
  induction l with
  | nil => simp [odGet] at h
  | cons e rest ih =>
      obtain ⟨k', w⟩ := e
      simp only [odGet] at h
      split at h
      · rename_i hk
        obtain rfl := hk
        obtain rfl := Option.some_inj.mp h
        exact List.mem_cons_self _ _
      · exact List.mem_cons_of_mem _ (ih h)

/-! ### The `_LRU` cache of `legacy_tokenizer.py`

A stored Python `None` is modelled as `Option.none`: the `word`-table
postcode cache deliberately seeds its entries with `None` values, and
`_LRU.get` distinguishes a stored `None` from a proper value (`if value is
not None`), so the value type of the model is `Option V`. -/

structure LRU (K V : Type) where
  data : List (K × Option V)
  maxsize : Nat

/-- `_LRU.__init__(maxsize, init_data)`: the effective maximum size is
enlarged to the seed size when the seed is bigger. -/
def lruInit (maxsize : Nat) (init_data : Option (List (K × Option V))) : LRU K V :=
  let d := (init_data.getD [])
  { data := d
    maxsize := if init_data.isSome ∧ maxsize < d.length then d.length else maxsize }

/-- `_LRU.get(key, generator)`.  Returns the value, the new cache state and
whether the generator ran (i.e. whether a database query was issued).
A stored `None` value is *not* recognised as a hit: the generator runs,
the front entry is evicted when the cache is at capacity, and the computed
value is stored with `d[key] = value` (in place for an existing key). -/
def lruGet (c : LRU K V) (key : K) (generator : K → Option V) :
    Option V × LRU K V × Bool :=
  match odGet c.data key with
  | some (some v) => (some v, { c with data := odMoveToEnd c.data key }, false)
  | _ =>
      let value := generator key
      let d1 := if c.maxsize ≤ c.data.length then c.data.tail else c.data
      (value, { c with data := odSet d1 key value }, true)

/-- Run a sequence of `get` operations; each operation carries the key and
the value its generator would produce. -/
def lruRun (c : LRU K V) (ops : List (K × Option V)) : LRU K V :=
  ops.foldl (fun st op => (lruGet st op.1 (fun _ => op.2)).2.1) c

/-! #### Size bound for `_LRU` -/

theorem odSet_length (l : List (K × V)) (k : K) (v : V) :
    (odSet l k v).length ≤ l.length + 1 := by
  induction l with
  | nil => simp [odSet]
  | cons e rest ih =>
      obtain ⟨k', w⟩ := e
      simp only [odSet]
      split
      · simp
      · simpa using Nat.succ_le_succ ih

theorem lruGet_maxsize (c : LRU K V) (k : K) (g : K → Option V) :
    ((lruGet c k g).2.1).maxsize = c.maxsize := by
  unfold lruGet
  split <;> simp

theorem odMoveToEnd_length_le (l : List (K × V)) (k : K) :
    (odMoveToEnd l k).length ≤ l.length := by
  unfold odMoveToEnd
  split
  · exact Nat.le_refl _
  · rename_i v h
    have hmem : (k, v) ∈ l := odGet_mem l k v h
    have hlen : (l.eraseP (fun e => decide (e.1 = k))).length + 1 = l.length :=
      List.length_eraseP_add_one hmem (by simp)
    simp only [List.length_append, List.length_singleton]
    omega

theorem lruGet_length (c : LRU K V) (k : K) (g : K → Option V)
    (hm : 0 < c.maxsize) (h : c.data.length ≤ c.maxsize) :
    ((lruGet c k g).2.1).data.length ≤ c.maxsize := by
  unfold lruGet
  split
  · rename_i v hv
    simp only
    calc (odMoveToEnd c.data k).length ≤ c.data.length := odMoveToEnd_length_le _ _
      _ ≤ c.maxsize := h
  · simp only
    by_cases hfull : c.maxsize ≤ c.data.length
    · have hlen : c.data.length = c.maxsize := Nat.le_antisymm h hfull
      have htail : c.data.tail.length = c.maxsize - 1 := by
        simp [List.length_tail, hlen]
      calc (odSet (if c.maxsize ≤ c.data.length then c.data.tail else c.data) k
              (g k)).length
          = (odSet c.data.tail k (g k)).length := by rw [if_pos hfull]
        _ ≤ c.data.tail.length + 1 := odSet_length _ _ _
        _ = c.maxsize - 1 + 1 := by rw [htail]
        _ = c.maxsize := Nat.succ_pred_eq_of_pos hm
    · have hlt : c.data.length < c.maxsize := Nat.lt_of_not_le hfull
      calc (odSet (if c.maxsize ≤ c.data.length then c.data.tail else c.data) k
              (g k)).length
          = (odSet c.data k (g k)).length := by rw [if_neg hfull]
        _ ≤ c.data.length + 1 := odSet_length _ _ _
        _ ≤ c.maxsize := hlt

theorem lruRun_length (c : LRU K V) (ops : List (K × Option V))
    (hm : 0 < c.maxsize) (h : c.data.length ≤ c.maxsize) :
    (lruRun c ops).data.length ≤ c.maxsize ∧ (lruRun c ops).maxsize = c.maxsize := by
  induction ops generalizing c with
  | nil => exact ⟨h, rfl⟩
  | cons op rest ih =>
      have hstep := lruGet_length c op.1 (fun _ => op.2) hm h
      have hmax := lruGet_maxsize c op.1 (fun _ => op.2)
      have := ih ((lruGet c op.1 (fun _ => op.2)).2.1)
        (by rw [hmax]; exact hm) (by rw [hmax]; exact hstep)
      simpa [lruRun, hmax] using this

/-! #### Recency annotation for `_LRU`

To state which entry an eviction removes, cache entries are annotated with
ghost timestamps: an entry's stamp is the time of its insertion or of its
last cache hit (`move_to_end`).  An in-place overwrite of a stored `None`
value keeps the entry's position in the `OrderedDict`, hence also its
stamp. -/

def odSetS : List ((K × Option V) × Nat) → K → Option V → Nat →
    List ((K × Option V) × Nat)
  | [], key, v, clk => [((key, v), clk)]
  | ((k, w), s) :: rest, key, v, clk =>
      if k = key then ((k, v), s) :: rest else ((k, w), s) :: odSetS rest key v clk

/-- `_LRU.get` on the timestamp-annotated state. -/
def lruGetS (st : List ((K × Option V) × Nat)) (maxsize clk : Nat) (key : K)
    (value : Option V) : List ((K × Option V) × Nat) :=
  match odGet (st.map Prod.fst) key with
  | some (some v) => (st.eraseP (fun e => e.1.1 = key)) ++ [((key, some v), clk)]
  | _ =>
      let d1 := if maxsize ≤ st.length then st.tail else st
      odSetS d1 key value clk

def lruRunS (maxsize : Nat) :
    List ((K × Option V) × Nat) → Nat → List (K × Option V) →
    List ((K × Option V) × Nat)
  | st, _, [] => st
  | st, clk, op :: rest => lruRunS maxsize (lruGetS st maxsize clk op.1 op.2) (clk + 1) rest

/-- Seed entries receive increasing stamps in seeding order. -/
def stampSeed : List (K × Option V) → Nat → List ((K × Option V) × Nat)
  | [], _ => []
  | e :: rest, i => (e, i) :: stampSeed rest (i + 1)

theorem stampSeed_map (seed : List (K × Option V)) (i : Nat) :
    (stampSeed seed i).map Prod.fst = seed := by
  induction seed generalizing i with
  | nil => rfl
  | cons e rest ih => simp [stampSeed, ih]

theorem odSetS_map (l : List ((K × Option V) × Nat)) (k : K) (v : Option V) (c : Nat) :
    (odSetS l k v c).map Prod.fst = odSet (l.map Prod.fst) k v := by
  induction l with
  | nil => rfl
  | cons e rest ih =>
      obtain ⟨⟨k', w⟩, s⟩ := e
      simp only [odSetS, List.map_cons, odSet]
      split <;> simp [ih]

theorem lruGetS_map (st : List ((K × Option V) × Nat)) (m clk : Nat) (k : K)
    (v : Option V) :
    (lruGetS st m clk k v).map Prod.fst
      = (lruGet ⟨st.map Prod.fst, m⟩ k (fun _ => v)).2.1.data := by
  cases h : odGet (st.map Prod.fst) k with
  | none =>
      simp only [lruGetS, lruGet, h, odSetS_map, List.length_map]
      by_cases hfull : m ≤ st.length
      · simp [hfull, List.map_tail]
      · simp [hfull]
  | some v0 =>
      cases v0 with
      | none =>
          simp only [lruGetS, lruGet, h, odSetS_map, List.length_map]
          by_cases hfull : m ≤ st.length
          · simp [hfull, List.map_tail]
          · simp [hfull]
      | some w =>
          simp only [lruGetS, lruGet, h, odMoveToEnd, List.map_append]
          rw [List.eraseP_map]
          have hfun : ((fun e : K × Option V => decide (e.1 = k)) ∘
              (Prod.fst : (K × Option V) × Nat → K × Option V))
              = fun e : (K × Option V) × Nat => decide (e.1.1 = k) := rfl
          rw [hfun]
          rfl

theorem odSetS_stamps (l : List ((K × Option V) × Nat)) (k : K) (v : Option V)
    (c : Nat) : ∀ e ∈ odSetS l k v c, e.2 = c ∨ e.2 ∈ l.map (fun x => x.2) := by
  induction l with
  | nil => intro e he; simp [odSetS] at he; simp [he]
  | cons x rest ih =>
      obtain ⟨⟨k', w⟩, s⟩ := x
      intro e he
      simp only [odSetS] at he
      split at he
      · rcases List.mem_cons.mp he with h | h
        · subst h; simp
        · right; simp only [List.map_cons, List.mem_cons]; right
          exact List.mem_map.mpr ⟨e, h, rfl⟩
      · rcases List.mem_cons.mp he with h | h
        · subst h; simp
        · rcases ih e h with h1 | h1
          · exact Or.inl h1
          · right; simp only [List.map_cons, List.mem_cons]; exact Or.inr h1

theorem odSetS_pairwise (l : List ((K × Option V) × Nat)) (k : K) (v : Option V)
    (c : Nat) (hp : List.Pairwise (fun a b => a.2 < b.2) l)
    (hb : ∀ e ∈ l, e.2 < c) :
    List.Pairwise (fun a b => a.2 < b.2) (odSetS l k v c) := by
  induction l with
  | nil => simp [odSetS]
  | cons x rest ih =>
      obtain ⟨⟨k', w⟩, s⟩ := x
      simp only [odSetS]
      rw [List.pairwise_cons] at hp
      split
      · exact List.pairwise_cons.mpr ⟨fun b hb' => hp.1 b hb', hp.2⟩
      · refine List.pairwise_cons.mpr ⟨?_, ih hp.2 (fun e he => hb e (List.mem_cons_of_mem _ he))⟩
        intro b hbmem
        rcases odSetS_stamps rest k v c b hbmem with h1 | h1
        · rw [h1]; exact hb _ (List.mem_cons_self _ _)
        · obtain ⟨y, hy, hy2⟩ := List.mem_map.mp h1
          rw [← hy2]
          exact hp.1 y hy

theorem odSetS_bound (l : List ((K × Option V) × Nat)) (k : K) (v : Option V)
    (c : Nat) (hb : ∀ e ∈ l, e.2 < c) :
    ∀ e ∈ odSetS l k v c, e.2 < c + 1 := by
  intro e he
  rcases odSetS_stamps l k v c e he with h | h
  · omega
  · obtain ⟨y, hy, hy2⟩ := List.mem_map.mp h
    have := hb y hy
    omega

theorem lruGetS_pairwise (st : List ((K × Option V) × Nat)) (m clk : Nat) (k : K)
    (v : Option V) (hp : List.Pairwise (fun a b => a.2 < b.2) st)
    (hb : ∀ e ∈ st, e.2 < clk) :
    List.Pairwise (fun a b => a.2 < b.2) (lruGetS st m clk k v)
      ∧ ∀ e ∈ lruGetS st m clk k v, e.2 < clk + 1 := by
  unfold lruGetS
  split
  · constructor
    · rw [List.pairwise_append]
      refine ⟨hp.sublist (List.eraseP_sublist st), List.pairwise_singleton _ _, ?_⟩
      intro a ha b hbm
      obtain rfl := List.mem_singleton.mp hbm
      exact hb a ((List.eraseP_sublist st).subset ha)
    · intro e he
      rcases List.mem_append.mp he with h | h
      · have := hb e ((List.eraseP_sublist st).subset h)
        omega
      · obtain rfl := List.mem_singleton.mp h
        omega
  · have htp : List.Pairwise (fun a b => a.2 < b.2)
        (if m ≤ st.length then st.tail else st) := by
      split
      · exact hp.sublist (List.tail_sublist st)
      · exact hp
    have htb : ∀ e ∈ (if m ≤ st.length then st.tail else st), e.2 < clk := by
      split
      · exact fun e he => hb e ((List.tail_sublist st).subset he)
      · exact hb
    exact ⟨odSetS_pairwise _ k v clk htp htb, odSetS_bound _ k v clk htb⟩

theorem lruRunS_invariant (m : Nat) (ops : List (K × Option V))
    (st : List ((K × Option V) × Nat)) (clk : Nat)
    (hp : List.Pairwise (fun a b => a.2 < b.2) st)
    (hb : ∀ e ∈ st, e.2 < clk) :
    List.Pairwise (fun a b => a.2 < b.2) (lruRunS m st clk ops) := by
  induction ops generalizing st clk with
  | nil => exact hp
  | cons op rest ih =>
      have h := lruGetS_pairwise st m clk op.1 op.2 hp hb
      exact ih _ _ h.1 h.2

theorem lruRunS_map (m : Nat) (ops : List (K × Option V))
    (st : List ((K × Option V) × Nat)) (clk : Nat) :
    (lruRunS m st clk ops).map Prod.fst
      = (lruRun ⟨st.map Prod.fst, m⟩ ops).data := by
  induction ops generalizing st clk with
  | nil => rfl
  | cons op rest ih =>
      simp only [lruRunS, lruRun, List.foldl_cons]
      rw [ih]
      have hmap := lruGetS_map st m clk op.1 op.2
      have hmax : ((lruGet ⟨st.map Prod.fst, m⟩ op.1 (fun _ => op.2)).2.1).maxsize = m :=
        lruGet_maxsize _ _ _
      simp only [lruRun]
      congr 1
      have : (lruGet ⟨st.map Prod.fst, m⟩ op.1 (fun _ => op.2)).2.1
          = ⟨(lruGetS st m clk op.1 op.2).map Prod.fst, m⟩ := by
        cases h : (lruGet ⟨st.map Prod.fst, m⟩ op.1 (fun _ => op.2)).2.1 with
        | mk d ms =>
            have h1 : d = (lruGetS st m clk op.1 op.2).map Prod.fst := by
              rw [hmap, h]
            have h2 : ms = m := by rw [← hmax, h]
            rw [h1, h2]
      rw [this]

theorem stampSeed_ge (seed : List (K × Option V)) (i : Nat) :
    ∀ b ∈ stampSeed seed i, i ≤ b.2 := by
  induction seed generalizing i with
  | nil => simp [stampSeed]
  | cons x rest ih =>
      intro b hb
      simp only [stampSeed, List.mem_cons] at hb
      rcases hb with h | h
      · simp [h]
      · have := ih (i + 1) b h
        omega

theorem stampSeed_pairwise (seed : List (K × Option V)) (i : Nat) :
    List.Pairwise (fun a b => a.2 < b.2) (stampSeed seed i) := by
  induction seed generalizing i with
  | nil => simp [stampSeed]
  | cons e rest ih =>
      simp only [stampSeed]
      refine List.pairwise_cons.mpr ⟨?_, ih (i + 1)⟩
      intro b hbmem
      have := stampSeed_ge rest (i + 1) b hbmem
      omega

theorem stampSeed_bound (seed : List (K × Option V)) (i : Nat) :
    ∀ e ∈ stampSeed seed i, e.2 < i + seed.length := by
  induction seed generalizing i with
  | nil => simp [stampSeed]
  | cons x rest ih =>
      intro e he
      simp only [stampSeed, List.mem_cons] at he
      rcases he with h | h
      · simp [h]
      · have := ih (i + 1) e h
        simp only [List.length_cons]
        omega

/-- In a recency-sorted state, the front entry has the minimal stamp. -/
theorem pairwise_head_min (st : List ((K × Option V) × Nat))
    (hp : List.Pairwise (fun a b => a.2 < b.2) st) :
    ∀ h0 ∈ st.head?, ∀ e ∈ st, h0.2 ≤ e.2 := by
  cases st with
  | nil => simp
  | cons x rest =>
      intro h0 hh e he
      obtain rfl : x = h0 := by simpa [List.head?] using hh
      rcases List.mem_cons.mp he with h | h
      · subst h; exact Nat.le_refl _
      · exact Nat.le_of_lt ((List.pairwise_cons.mp hp).1 e h)

/-- On a miss (no entry, or an entry holding `None`) while at capacity,
`_LRU.get` drops the front entry before storing the generated value. -/
theorem lruGet_evicts_head (c : LRU K V) (k : K) (g : K → Option V)
    (hmiss : odGet c.data k = none ∨ odGet c.data k = some none)
    (hfull : c.maxsize ≤ c.data.length) :
    (lruGet c k g).2.1.data = odSet c.data.tail k (g k) := by
  unfold lruGet
  rcases hmiss with h | h <;> rw [h] <;> simp [hfull]

/-! ### Python string primitives

The Python string operations the tokenizers use are modelled directly over
the character list of the Lean string, mirroring Python semantics (ASCII
case mapping, whitespace stripping, `re.split` keeping empty fields,
left-to-right non-overlapping `str.replace`). -/

/-- Python `s.strip()`. -/
def pyStrip (s : String) : String :=
  ⟨((s.data.dropWhile Char.isWhitespace).reverse.dropWhile Char.isWhitespace).reverse⟩

/-- Python `s.upper()` (ASCII). -/
def pyUpper (s : String) : String :=
  ⟨s.data.map Char.toUpper⟩

/-- Python `s.lower()` (ASCII). -/
def pyLower (s : String) : String :=
  ⟨s.data.map Char.toLower⟩

/-- Python `s.startswith(pre)`. -/
def pyStartsWith (s pre : String) : Bool :=
  pre.data.isPrefixOf s.data

/-- `re.split` on a character class: split at every matching character,
keeping empty fields. -/
def pySplitChar (p : Char → Bool) (s : String) : List String :=
  (s.data.foldr (fun c acc =>
    if p c then [] :: acc
    else match acc with
      | [] => [[c]]
      | g :: gs => (c :: g) :: gs) [[]]).map (fun l => ⟨l⟩)

/-- Python `pat in s` (substring containment; the empty pattern is always
contained). -/
def containsSub (s pat : String) : Bool :=
  s.data.tails.any (fun t => pat.data.isPrefixOf t)

/-- One left-to-right pass of non-overlapping replacement; `fuel` bounds
the recursion (a character is consumed at every step).  An empty pattern
is left alone (Python would interleave the replacement; the tokenizer
configuration has no empty abbreviation). -/
def replaceChars : Nat → List Char → List Char → List Char → List Char
  | _, _, _, [] => []
  | 0, _, _, l => l
  | fuel + 1, pat, rep, c :: rest =>
      if pat.isPrefixOf (c :: rest) && !pat.isEmpty then
        rep ++ replaceChars fuel pat rep ((c :: rest).drop pat.length)
      else c :: replaceChars fuel pat rep rest

/-- Python `s.replace(pat, rep)`. -/
def pyReplace (s pat rep : String) : String :=
  ⟨replaceChars s.data.length pat.data rep.data s.data⟩

/-- Python `';'.join(l)` and friends. -/
def pyJoin (sep : String) : List String → String
  | [] => ""
  | [x] => x
  | x :: xs => x ++ sep ++ pyJoin sep xs

/-! ### The `word` table

`(word_id, word_token, word, class, type, operator, country_code,
search_name_count)`.  `word_id` values come from the sequence `seq_word`
and `search_name_count` is a statistics column; neither takes part in any
claim, so rows carry the five text columns, all of which are nullable.
`class` and `type` are Lean keywords; the fields are named `cls` and
`typ`. -/

structure WordRow where
  word_token : Option String
  word : Option String
  cls : Option String
  typ : Option String
  oper : Option String
  country_code : Option String
deriving DecidableEq, Repr

/-- A special phrase `(name, class, type, operator)` as handed to
`LegacyNameAnalyzer.update_special_phrases`. -/
structure SpecialPhrase where
  name : String
  cls : String
  typ : String
  op : String
deriving DecidableEq, Repr

/-- The phrase partition of the `word` table, i.e. the SQL filter
`class != 'place' OR (type != 'house' AND type != 'postcode')` under
three-valued logic: a comparison with NULL is unknown and only rows where
the whole predicate is true are selected. -/
def inPhrasePartition (r : WordRow) : Bool :=
  (match r.cls with | some c => c != "place" | none => false) ||
  (match r.typ with | some t => t != "house" && t != "postcode" | none => false)

/-- Python `oper or '-'`: both SQL NULL and the empty string are falsy and
read back as `'-'`. -/
def operReadback (o : Option String) : String :=
  match o with
  | none => "-"
  | some s => if s = "" then "-" else s

/-- The `(word, class, type, operator)` tuple under which an existing row
enters the `existing_phrases` set. -/
def toPhraseTuple (r : WordRow) :
    Option String × Option String × Option String × String :=
  (r.word, r.cls, r.typ, operReadback r.oper)

/-- `existing_phrases`: the set of partition rows' readback tuples. -/
def existingPhrases (table : List WordRow) :
    List (Option String × Option String × Option String × String) :=
  ((table.filter inPhrasePartition).map toPhraseTuple).dedup

/-- The tuple of a (normalized) input phrase, for comparison with
`existing_phrases`. -/
def phraseTuple (p : SpecialPhrase) :
    Option String × Option String × Option String × String :=
  (some p.name, some p.cls, some p.typ, p.op)

/-- `norm_phrases`: normalize the label of each phrase and form a set. -/
def normPhrases (normalize : String → String) (phrases : List SpecialPhrase) :
    List SpecialPhrase :=
  (phrases.map (fun p => { p with name := normalize p.name })).dedup

/-- The row INSERTed for a new phrase: `word_token` from
`make_standard_name`, `operator` stored only for `'in'`/`'near'` and NULL
otherwise. -/
def phraseRow (msn : String → String) (p : SpecialPhrase) : WordRow :=
  { word_token := some (msn p.name)
    word := some p.name
    cls := some p.cls
    typ := some p.typ
    oper := if p.op = "in" ∨ p.op = "near" then some p.op else none
    country_code := none }

/-- SQL equality of a nullable column against a parameter: NULL never
compares equal. -/
def sqlEqOpt (a b : Option String) : Bool :=
  match a, b with
  | some x, some y => x == y
  | _, _ => false

/-- The WHERE clause of the DELETE in `update_special_phrases` for one
`(name, in_class, in_type, op)` value row:
`word = name and class = in_class and type = in_type and
((op = '-' and operator is null) or op = operator)`. -/
def deleteMatches (t : Option String × Option String × Option String × String)
    (r : WordRow) : Bool :=
  sqlEqOpt r.word t.1 && sqlEqOpt r.cls t.2.1 && sqlEqOpt r.typ t.2.2.1 &&
    ((t.2.2.2 == "-" && r.oper == none) || sqlEqOpt r.oper (some t.2.2.2))

/-- `LegacyNameAnalyzer.update_special_phrases`: normalize the input
phrases, diff them against the phrase partition, INSERT the additions and
DELETE the removals. -/
def update_special_phrases (normalize msn : String → String)
    (phrases : List SpecialPhrase) (table : List WordRow) : List WordRow :=
  let norm_phrases := normPhrases normalize phrases
  let existing_phrases := existingPhrases table
  let to_add := norm_phrases.filter (fun p => decide (phraseTuple p ∉ existing_phrases))
  let to_delete := existing_phrases.filter
    (fun t => decide (t ∉ norm_phrases.map phraseTuple))
  let t1 := table ++ to_add.map (phraseRow msn)
  t1.filter (fun r => ! to_delete.any (fun t => deleteMatches t r))

/-! ### Country names and guarded inserts -/

/-- `LegacyNameAnalyzer.add_country_names`: one INSERT..SELECT whose
`WHERE NOT EXISTS` guard is evaluated against the table state before the
insert (a single SQL statement sees one snapshot). -/
def add_country_names (msn : String → String) (country_code : String)
    (names : List String) (table : List WordRow) : List WordRow :=
  table ++ ((names.map (fun n => " " ++ msn n)).filter (fun tok =>
      ! table.any (fun r =>
        r.word_token == some tok && r.country_code == some country_code))).map
    (fun tok => { word_token := some tok, word := none, cls := none, typ := none,
                  oper := none, country_code := some country_code })

/-- `LegacyIcuNameAnalyzer._add_normalized_country_names`: empty names are
filtered out, the token is the name with a leading blank, and the
`WHERE NOT EXISTS` guard checks `(word_token, country_code)`. -/
def add_normalized_country_names (country_code : String)
    (normalized_names : List String) (table : List WordRow) : List WordRow :=
  table ++ ((normalized_names.filter (fun n => n != "")).filter (fun n =>
      ! table.any (fun r =>
        r.word_token == some (" " ++ n) && r.country_code == some country_code))).map
    (fun n => { word_token := some (" " ++ n), word := none, cls := none, typ := none,
                oper := none, country_code := some country_code })

/-- Modelled from the spec: the stored procedure `create_postcode_id` is
not part of the Python sources (it lives in the SQL function library); per
the spec it registers the postcode as a `word` row with `class='place',
type='postcode'` behind a `WHERE NOT EXISTS` guard, which makes it
idempotent.  The token text the procedure computes is abstracted as
`tokenOf`. -/
def create_postcode_id (tokenOf : String → String) (postcode : String)
    (table : List WordRow) : List WordRow :=
  if table.any (fun r =>
      r.cls == some "place" && r.typ == some "postcode" && r.word == some postcode)
  then table
  else table ++ [{ word_token := some (tokenOf postcode), word := some postcode,
                   cls := some "place", typ := some "postcode", oper := none,
                   country_code := none }]

/-- Modelled from the spec: the guarded insert that
`LegacyIcuNameAnalyzer.add_special_phrase` builds (its SQL text cannot be
interpreted further because, as written, it references the undefined
column `cc`); the spec states that the `WHERE NOT EXISTS` guard makes the
operation idempotent on the `word` table. -/
def add_special_phrase_guarded_insert (normalized token osm_key osm_value op : String)
    (table : List WordRow) : List WordRow :=
  if table.any (fun r =>
      r.word_token == some (" " ++ token) && r.word == some normalized &&
      r.cls == some osm_key && r.typ == some osm_value &&
      r.oper == (if op = "near" ∨ op = "in" then some op else none))
  then table
  else table ++ [{ word_token := some (" " ++ token), word := some normalized,
                   cls := some osm_key, typ := some osm_value,
                   oper := if op = "near" ∨ op = "in" then some op else none,
                   country_code := none }]

/-- First positional argument of `psycopg2` `cursor.execute`: the query
text, or — as at the buggy call site — the cursor object itself. -/
inductive PgQueryArg where
  | sqlText (sql : String)
  | cursorObj
deriving DecidableEq, Repr

/-- `cursor.execute`: only a string query is accepted; passing any other
object raises `TypeError`. -/
def pgExecute (arg : PgQueryArg) (run : List WordRow → List WordRow)
    (table : List WordRow) : Except String (List WordRow) :=
  match arg with
  | .sqlText _ => .ok (run table)
  | .cursorObj => .error "TypeError: argument 1 must be a string or unicode object"

/-- `LegacyIcuNameAnalyzer.add_special_phrase`: normalizes the name,
builds the guarded INSERT and its values, then runs
`cur.execute(cur, sql, values)` — the cursor object is passed where the
query string belongs, so the statement never executes. -/
def add_special_phrase (normalize msw : String → String)
    (name osm_key osm_value op : String) (table : List WordRow) :
    Except String (List WordRow) :=
  let normalized := normalize name
  let token := msw name
  pgExecute .cursorObj
    (add_special_phrase_guarded_insert normalized token osm_key osm_value op) table

/-! #### Idempotence of the guarded writes (claim C8's context) -/

/-- An `INSERT .. WHERE NOT EXISTS` statement appends, for every item not
yet guarded against, a row that its own guard recognises; running the same
statement again therefore appends nothing. -/
theorem guarded_insert_idem {A : Type} (g : A → WordRow) (q : A → WordRow → Bool)
    (hq : ∀ x, q x (g x) = true) (items : List A) (table t1 : List WordRow)
    (ht1 : t1 = table ++ (items.filter (fun x => ! table.any (q x))).map g) :
    t1 ++ (items.filter (fun x => ! t1.any (q x))).map g = t1 := by
  have hnil : items.filter (fun x => ! t1.any (q x)) = [] := by
    rw [List.filter_eq_nil_iff]
    intro x hx
    have hany : t1.any (q x) = true := by
      rw [ht1, List.any_append]
      by_cases hold : table.any (q x)
      · simp [hold]
      · have hmem : x ∈ items.filter (fun x => ! table.any (q x)) :=
          List.mem_filter.mpr ⟨hx, by simp [hold]⟩
        have hmap : ((items.filter (fun x => ! table.any (q x))).map g).any (q x) = true :=
          List.any_eq_true.mpr ⟨g x, List.mem_map.mpr ⟨x, hmem, rfl⟩, hq x⟩
        simp [hmap]
    simp [hany]
  rw [hnil]
  simp

theorem add_country_names_idem (msn : String → String) (cc : String)
    (names : List String) (table : List WordRow) :
    add_country_names msn cc names (add_country_names msn cc names table)
      = add_country_names msn cc names table := by
  unfold add_country_names
  exact guarded_insert_idem _ _ (fun x => by simp) _ table _ rfl

theorem add_normalized_country_names_idem (cc : String)
    (names : List String) (table : List WordRow) :
    add_normalized_country_names cc names (add_normalized_country_names cc names table)
      = add_normalized_country_names cc names table := by
  unfold add_normalized_country_names
  exact guarded_insert_idem _ _ (fun x => by simp) _ table _ rfl

theorem create_postcode_id_idem (tokenOf : String → String) (pc : String)
    (table : List WordRow) :
    create_postcode_id tokenOf pc (create_postcode_id tokenOf pc table)
      = create_postcode_id tokenOf pc table := by
  unfold create_postcode_id
  by_cases h : table.any (fun r =>
      r.cls == some "place" && r.typ == some "postcode" && r.word == some pc)
  · simp [h]
  · simp only [h, if_false, Bool.false_eq_true]
    rw [if_pos]
    rw [List.any_append]
    simp

theorem guarded_single_insert_idem (p : WordRow → Bool) (row : WordRow)
    (hp : p row = true) (table : List WordRow) :
    (fun t => if t.any p then t else t ++ [row])
        ((fun t => if t.any p then t else t ++ [row]) table)
      = (fun t => if t.any p then t else t ++ [row]) table := by
  by_cases h : table.any p
  · simp [h]
  · have hc : (table ++ [row]).any p = true := by
      rw [List.any_append]
      simp [hp]
    simp [h, hc]

theorem add_special_phrase_guarded_insert_idem (normalized token k v op : String)
    (table : List WordRow) :
    add_special_phrase_guarded_insert normalized token k v op
        (add_special_phrase_guarded_insert normalized token k v op table)
      = add_special_phrase_guarded_insert normalized token k v op table := by
  unfold add_special_phrase_guarded_insert
  exact guarded_single_insert_idem _ _ (by simp) table

/-! ### The legacy name analyzer (`legacy_tokenizer.py`)

The analyzer turns a place into the `token_info` JSON document, issuing
database queries along the way.  Query results are supplied by a
`LegacyEnv`; issued queries are collected as `DbCall`s so that theorems
can count them. -/

/-- Values stored in the legacy `token_info` document.  `null` models a
Python `None` (it can only arise from a degenerate cache state, never from
a fresh analyzer); `amap` is the `addr` map from address key to the cached
`(addr_ids, word_ids)` pair. -/
inductive TokVal where
  | null
  | str (s : String)
  | amap (m : List (String × Option (String × String)))
deriving DecidableEq, Repr

/-- Database round-trips issued while tokenizing. -/
inductive DbCall where
  | makeKeywords
  | nameTokens
  | countryNames (cc : String) (names : List String)
  | createHousenumbers
  | createPostcode (pc : String)
  | streetTerms
  | placeTerms
  | streetPlaceTerms
  | addrTerms
deriving DecidableEq, Repr

/-- Results of the SQL functions the legacy analyzer calls. -/
structure LegacyEnv where
  make_keywords : List (String × String) → String
  word_ids_from_name : String → String
  place_terms : String → String × String
  address_terms : String → String × String
  create_housenumbers : List String → String × String
  housenumber_token : Nat → String

/-- `_TokenCache`: per-analyzer caches.  Construction also issues the 100
housenumber look-ups and the postcode seed SELECT; those happen before any
place is tokenized and are not recorded as tokenize-time calls. -/
structure TokenCache where
  streets : LRU String String
  places : LRU String (String × String)
  address_terms : LRU String (String × String)
  cached_housenumbers : List (String × String)
  postcodes : LRU String Unit

/-- `_TokenCache.__init__`: empty LRUs for streets/places/address terms,
the precomputed housenumber tokens for `1..100` keyed by their decimal
strings, and the postcode LRU seeded from the `word` table with `None`
values (`postcodes[row[0]] = None`). -/
def tokenCacheInit (env : LegacyEnv) (postcode_seed : List String) : TokenCache :=
  { streets := lruInit 256 none
    places := lruInit 128 none
    address_terms := lruInit 1024 none
    cached_housenumbers :=
      (List.range' 1 100).map (fun i => (toString i, env.housenumber_token i))
    postcodes := lruInit 32 (some (postcode_seed.foldl (fun d w => odSet d w none) [])) }

/-- An input place row: any attribute beyond the id may be absent. -/
structure Place where
  name : Option (List (String × String)) := none
  address : Option (List (String × String)) := none
  country_feature : Option String := none
deriving DecidableEq, Repr

/-- Python truthiness of an optional dictionary. -/
def truthy {α : Type} (o : Option (List α)) : Bool :=
  match o with
  | some l => !l.isEmpty
  | none => false

/-- `re.fullmatch(r'[A-Za-z][A-Za-z]', s)`. -/
def isAsciiAlpha2 (s : String) : Bool :=
  s.length = 2 && s.data.all (fun c => c.isUpper || c.isLower)

/-- `re.split(r'[;,]', s)` (empty fields are kept). -/
def splitHnr (s : String) : List String :=
  pySplitChar (fun c => c == ';' || c == ',') s

/-- `_TokenInfo.add_housenumbers`: a single housenumber answered from the
precomputed cache short-circuits; otherwise the values are split on
`[;,]`, stripped, deduplicated when more than one, and sent to
`create_housenumbers`. -/
def add_housenumbers (env : LegacyEnv) (cache : TokenCache)
    (data : List (String × TokVal)) (hnrs : List String) :
    List (String × TokVal) × List DbCall :=
  let hit := match hnrs with
    | [h] => (odGet cache.cached_housenumbers h).map (fun t => (h, t))
    | _ => none
  match hit with
  | some ht =>
      (odSet (odSet data "hnr_tokens" (.str ht.2)) "hnr" (.str ht.1), [])
  | none =>
      let simple_list := hnrs.flatMap (fun h => (splitHnr h).map pyStrip)
      let simple_list := if 1 < simple_list.length then simple_list.dedup else simple_list
      let res := env.create_housenumbers simple_list
      (odSet (odSet data "hnr_tokens" (.str res.1)) "hnr" (.str res.2),
       [DbCall.createHousenumbers])

/-- `_TokenInfo.add_street`: `word_ids_from_name` through the street LRU. -/
def add_street (env : LegacyEnv) (cache : TokenCache)
    (data : List (String × TokVal)) (street : String) :
    List (String × TokVal) × TokenCache × List DbCall :=
  let r := lruGet cache.streets street (fun name => some (env.word_ids_from_name name))
  (odSet data "street" (match r.1 with | some s => .str s | none => .null),
   { cache with streets := r.2.1 },
   if r.2.2 then [DbCall.streetTerms] else [])

/-- `_TokenInfo.add_place`: the search/match pair through the place LRU. -/
def add_place (env : LegacyEnv) (cache : TokenCache)
    (data : List (String × TokVal)) (place : String) :
    List (String × TokVal) × TokenCache × List DbCall :=
  let r := lruGet cache.places place (fun name => some (env.place_terms name))
  ((match r.1 with
    | some sm => odSet (odSet data "place_search" (.str sm.1)) "place_match" (.str sm.2)
    | none => odSet (odSet data "place_search" .null) "place_match" .null),
   { cache with places := r.2.1 },
   if r.2.2 then [DbCall.placeTerms] else [])

/-- `_TokenInfo.add_address_terms`: one cached look-up per term value. -/
def add_address_terms (env : LegacyEnv) (cache : TokenCache)
    (data : List (String × TokVal)) (terms : List (String × String)) :
    List (String × TokVal) × TokenCache × List DbCall :=
  let step := terms.foldl (fun acc kv =>
      let r := lruGet acc.2.1.address_terms kv.2 (fun name => some (env.address_terms name))
      (odSet acc.1 kv.1 r.1, { acc.2.1 with address_terms := r.2.1 },
       acc.2.2 ++ if r.2.2 then [DbCall.addrTerms] else []))
    (([], cache, []) :
      List (String × Option (String × String)) × TokenCache × List DbCall)
  (odSet data "addr" (.amap step.1), step.2.1, step.2.2)

/-- `LegacyNameAnalyzer._add_postcode`: skip when the postcode contains
`:`/`,`/`;`; otherwise strip, upper-case and go through the postcode LRU,
whose generator runs `create_postcode_id` and returns `None`. -/
def add_postcode (cache : TokenCache) (postcode : String) :
    TokenCache × List DbCall :=
  if postcode.data.any (fun c => c == ':' || c == ',' || c == ';') then (cache, [])
  else
    let r := lruGet cache.postcodes (pyUpper (pyStrip postcode)) (fun _ => none)
    ({ cache with postcodes := r.2.1 },
     if r.2.2 then [DbCall.createPostcode (pyUpper (pyStrip postcode))] else [])

/-- Loop state of `process_place`'s iteration over `address.items()`. -/
structure LegacyAcc where
  data : List (String × TokVal)
  cache : TokenCache
  calls : List DbCall
  hnrs : List String
  addr_terms : List (String × String)

/-- One iteration of the `for key, value in address.items()` dispatch. -/
def legacyAddressStep (env : LegacyEnv) (acc : LegacyAcc) (kv : String × String) :
    LegacyAcc :=
  if kv.1 = "postcode" then
    let r := add_postcode acc.cache kv.2
    { acc with cache := r.1, calls := acc.calls ++ r.2 }
  else if kv.1 = "housenumber" ∨ kv.1 = "streetnumber" ∨ kv.1 = "conscriptionnumber" then
    { acc with hnrs := acc.hnrs ++ [kv.2] }
  else if kv.1 = "street" then
    let r := add_street env acc.cache acc.data kv.2
    { acc with data := r.1, cache := r.2.1, calls := acc.calls ++ r.2.2 }
  else if kv.1 = "place" then
    let r := add_place env acc.cache acc.data kv.2
    { acc with data := r.1, cache := r.2.1, calls := acc.calls ++ r.2.2 }
  else if pyStartsWith kv.1 "_" = false ∧ kv.1 ≠ "country" ∧ kv.1 ≠ "full" then
    { acc with addr_terms := acc.addr_terms ++ [kv] }
  else acc

/-- The part of `process_place` before the address loop: the `names`
token array and, for a well-formed `country_feature`, the country-name
registration. -/
def legacyBase (env : LegacyEnv) (cache : TokenCache) (place : Place) : LegacyAcc :=
  if truthy place.name then
    { data := odSet [] "names" (.str (env.make_keywords (place.name.getD [])))
      cache := cache
      calls := [DbCall.makeKeywords] ++
        (match place.country_feature with
         | some cf =>
             if isAsciiAlpha2 cf
             then [DbCall.countryNames (pyLower cf) ((place.name.getD []).map Prod.snd)]
             else []
         | none => [])
      hnrs := []
      addr_terms := [] }
  else { data := [], cache := cache, calls := [], hnrs := [], addr_terms := [] }

/-- `if hnrs: token_info.add_housenumbers(...)` after the address loop. -/
def legacyHnrFinish (env : LegacyEnv) (acc : LegacyAcc) : LegacyAcc :=
  if acc.hnrs ≠ [] then
    let r := add_housenumbers env acc.cache acc.data acc.hnrs
    { acc with data := r.1, calls := acc.calls ++ r.2 }
  else acc

/-- `if addr_terms: token_info.add_address_terms(...)` after the loop. -/
def legacyAddrFinish (env : LegacyEnv) (acc : LegacyAcc) : LegacyAcc :=
  if acc.addr_terms ≠ [] then
    let r := add_address_terms env acc.cache acc.data acc.addr_terms
    { acc with data := r.1, cache := r.2.1, calls := acc.calls ++ r.2.2 }
  else acc

/-- `LegacyNameAnalyzer.process_place`: returns the `token_info` data, the
updated caches and the database calls issued. -/
def process_place (env : LegacyEnv) (cache : TokenCache) (place : Place) :
    List (String × TokVal) × TokenCache × List DbCall :=
  if truthy place.address then
    let acc := legacyAddrFinish env (legacyHnrFinish env
      ((place.address.getD []).foldl (legacyAddressStep env)
        (legacyBase env cache place)))
    (acc.data, acc.cache, acc.calls)
  else
    ((legacyBase env cache place).data, (legacyBase env cache place).cache,
     (legacyBase env cache place).calls)

/-! ### The ICU name analyzer (`legacy_icu_tokenizer.py`) -/

/-- Values of the ICU `token_info` document. -/
inductive IcuTokVal where
  | str (s : String)
  | amap (m : List (String × (String × String)))
deriving DecidableEq, Repr

/-- Results of the transliterator and of the SQL functions the ICU
analyzer calls. -/
structure IcuEnv where
  trans : String → String
  abbreviations : List (String × String)
  name_tokens : List String → List String → String
  addr_ids_from_name : String → String
  word_ids_from_name : String → String
  name_id_array : String → String
  housenumber_array : List String → String
  housenumber_seed : Nat → String

/-- `LegacyIcuNameAnalyzer.make_standard_word`: transliterate, pad with
blanks, apply the abbreviation replacements, strip. -/
def make_standard_word (env : IcuEnv) (name : String) : String :=
  pyStrip (env.abbreviations.foldl
    (fun n fa => if containsSub n fa.1 then pyReplace n fa.1 fa.2 else n)
    (" " ++ env.trans name ++ " "))

/-- `functools.lru_cache(maxsize)`: a strict LRU over total values.  The
result reports the value, the new cache contents, whether the wrapped body
ran, and the database calls that run issued. -/
def flruGet (data : List (K × V)) (maxsize : Nat) (key : K)
    (f : K → V × List DbCall) : V × List (K × V) × Bool × List DbCall :=
  match odGet data key with
  | some v => (v, odMoveToEnd data key, false, [])
  | none =>
      let r := f key
      (r.1, (if maxsize ≤ data.length then data.tail else data) ++ [(key, r.1)],
       true, r.2)

/-- Per-analyzer mutable state: the three `functools.lru_cache` caches and
the immutable precomputed housenumber dictionary (keyed by the `hnrs`
tuple). -/
structure IcuState where
  addr_terms_cache : List (String × (String × String))
  street_place_cache : List (String × (String × String))
  postcode_cache : List (String × Unit)
  cached_housenumbers : List (List String × String)
deriving DecidableEq, Repr

/-- Fresh analyzer state; `_precompute_housenumbers` keys the cache by the
1-tuples `(str(i),)` for `i = 1..100`. -/
def icuStateInit (env : IcuEnv) : IcuState :=
  { addr_terms_cache := []
    street_place_cache := []
    postcode_cache := []
    cached_housenumbers :=
      (List.range' 1 100).map (fun i => ([toString i], env.housenumber_seed i)) }

/-- `LegacyIcuNameAnalyzer.normalize_postcode`: `None` when absent or when
the value contains `:`/`,`/`;`, otherwise stripped and upper-cased. -/
def normalize_postcode (postcode : Option String) : Option String :=
  match postcode with
  | some p =>
      if p.data.any (fun c => c == ':' || c == ',' || c == ';') then none
      else some (pyUpper (pyStrip p))
  | none => none

/-- Body of `_get_addr_terms` (runs on a cache miss). -/
def addr_terms_body (env : IcuEnv) (nm : String) : (String × String) × List DbCall :=
  let norm := make_standard_word env nm
  if norm = "" then (("\x7b\x7d", "\x7b\x7d"), [])
  else ((env.addr_ids_from_name norm, env.word_ids_from_name norm), [DbCall.addrTerms])

/-- Body of `_get_street_place_terms` (runs on a cache miss): the pair is
`(word_ids_from_name(norm), ARRAY[getorcreate_name_id(norm, '')])`. -/
def street_place_terms_body (env : IcuEnv) (nm : String) :
    (String × String) × List DbCall :=
  let norm := make_standard_word env nm
  if norm = "" then (("\x7b\x7d", "\x7b\x7d"), [])
  else ((env.word_ids_from_name norm, env.name_id_array norm),
        [DbCall.streetPlaceTerms])

/-- `_get_addr_terms`: the body behind `functools.lru_cache(1024)`. -/
def get_addr_terms (env : IcuEnv) (st : IcuState) (name : String) :
    (String × String) × IcuState × Bool × List DbCall :=
  let r := flruGet st.addr_terms_cache 1024 name (addr_terms_body env)
  (r.1, { st with addr_terms_cache := r.2.1 }, r.2.2.1, r.2.2.2)

/-- `_get_street_place_terms`: the body behind `functools.lru_cache(256)`. -/
def get_street_place_terms (env : IcuEnv) (st : IcuState) (name : String) :
    (String × String) × IcuState × Bool × List DbCall :=
  let r := flruGet st.street_place_cache 256 name (street_place_terms_body env)
  (r.1, { st with street_place_cache := r.2.1 }, r.2.2.1, r.2.2.2)

/-- `_create_postcode_id`: `create_postcode_id(pc)` behind
`functools.lru_cache(32)`. -/
def create_postcode_id_cached (st : IcuState) (pc : String) :
    IcuState × Bool × List DbCall :=
  let r := flruGet st.postcode_cache 32 pc (fun p => ((), [DbCall.createPostcode p]))
  ({ st with postcode_cache := r.2.1 }, r.2.2.1, r.2.2.2)

/-- Python `str.split()` (split on whitespace, dropping empty fields). -/
def pySplitWs (s : String) : List String :=
  (pySplitChar Char.isWhitespace s).filter (fun t => t ≠ "")

/-- `LegacyIcuNameAnalyzer._get_housenumber_ids`: the full `hnrs` tuple is
the cache key; on a hit the raw first value is the match string and no
query is issued. -/
def get_housenumber_ids (env : IcuEnv) (st : IcuState) (hnrs : List String) :
    (String × String) × List DbCall :=
  match odGet st.cached_housenumbers hnrs with
  | some v => ((v, hnrs.headD ""), [])
  | none =>
      let simple_set := (hnrs.flatMap (fun h => (splitHnr h).map pyStrip)).dedup
      let normalised := simple_set.map (make_standard_word env)
      ((env.housenumber_array normalised, pyJoin ";" normalised),
       [DbCall.createHousenumbers])

/-- the keys of `address` that feed the housenumber tokens. -/
def isHnrKey (k : String) : Bool :=
  k == "housenumber" || k == "streetnumber" || k == "conscriptionnumber"

/-- the reserved address keys excluded from the ICU `addr` map. -/
def icuReservedKey (k : String) : Bool :=
  k == "country" || k == "street" || k == "place" || k == "postcode" ||
  k == "full" || k == "housenumber" || k == "streetnumber" || k == "conscriptionnumber"

/-- Intermediate result threaded through the stages of `tokenize`. -/
structure IcuRes where
  token_info : List (String × IcuTokVal)
  st : IcuState
  calls : List DbCall
deriving DecidableEq, Repr

/-- Names part of `tokenize`: token ids for the (deduplicated) normalized
names and their partial words, plus country-name registration for a
well-formed `country_feature`. -/
def icuNamesPart (env : IcuEnv) (place : Place) :
    List (String × IcuTokVal) × List DbCall :=
  if truthy place.name then
    let norm_names := ((place.name.getD []).map (fun kv => make_standard_word env kv.2)).dedup
    let partials := (norm_names.flatMap pySplitWs).dedup
    (odSet [] "names"
      (.str (env.name_tokens (norm_names.filter (fun n => n ≠ ""))
                             (partials.filter (fun p => p ≠ "")))),
     [DbCall.nameTokens] ++
      (match place.country_feature with
       | some cf =>
           if isAsciiAlpha2 cf
           then [DbCall.countryNames (pyLower cf) norm_names]
           else []
       | none => []))
  else ([], [])

/-- Housenumber stage of `tokenize`. -/
def icuHnrStage (env : IcuEnv) (address : List (String × String)) (r : IcuRes) :
    IcuRes :=
  let hnrs := (address.filter (fun kv => isHnrKey kv.1)).map Prod.snd
  if hnrs ≠ [] then
    let h := get_housenumber_ids env r.st hnrs
    { r with
      token_info :=
        odSet (odSet r.token_info "hnr_search" (.str h.1.1)) "hnr_match" (.str h.1.2)
      calls := r.calls ++ h.2 }
  else r

/-- Postcode stage of `tokenize`: only touches the cache and the call
list. -/
def icuPostcodeStage (address : List (String × String)) (r : IcuRes) : IcuRes :=
  match normalize_postcode (odGet address "postcode") with
  | some p =>
      if p ≠ "" then
        let c := create_postcode_id_cached r.st p
        { r with st := c.1, calls := r.calls ++ c.2.2 }
      else r
  | none => r

/-- Street/place stage of `tokenize` for one `atype`: the first component
of the cached pair becomes `atype + '_match'`, the second
`atype + '_search'`. -/
def icuStreetPlaceStage (env : IcuEnv) (address : List (String × String))
    (atype : String) (r : IcuRes) : IcuRes :=
  match odGet address atype with
  | some v =>
      let t := get_street_place_terms env r.st v
      { token_info :=
          odSet (odSet r.token_info (atype ++ "_match") (.str t.1.1))
            (atype ++ "_search") (.str t.1.2)
        st := t.2.1
        calls := r.calls ++ t.2.2.2 }
  | none => r

/-- `addr` stage of `tokenize`: terms for all non-reserved address keys. -/
def icuAddrStage (env : IcuEnv) (address : List (String × String)) (r : IcuRes) :
    IcuRes :=
  let s := (address.filter (fun kv => ! icuReservedKey kv.1)).foldl
    (fun acc kv =>
      let t := get_addr_terms env acc.2.1 kv.2
      (odSet acc.1 kv.1 t.1, t.2.1, acc.2.2 ++ t.2.2.2))
    (([], r.st, r.calls) :
      List (String × (String × String)) × IcuState × List DbCall)
  { token_info := odSet r.token_info "addr" (.amap s.1), st := s.2.1, calls := s.2.2 }

/-- `LegacyIcuNameAnalyzer.tokenize`: returns the `token_info` document,
the updated analyzer state and the database calls issued. -/
def tokenize (env : IcuEnv) (st : IcuState) (place : Place) : IcuRes :=
  let np := icuNamesPart env place
  if truthy place.address then
    let address := place.address.getD []
    icuAddrStage env address
      (icuStreetPlaceStage env address "place"
        (icuStreetPlaceStage env address "street"
          (icuPostcodeStage address
            (icuHnrStage env address ⟨np.1, st, np.2⟩))))
  else ⟨np.1, st, np.2⟩

/-! ### The index worker (`indexer/worker.py`)

`IndexWorker._process_slice` is a generator; its yields are a pure
function of the id slice, the batch size and the *schedule*: for each
issued command, the number of `is_done()` polls that report the command as
still in flight.  `continue_slice` surfaces one yield per call and resets
`in_progress` after the `-1` terminator. -/

/-- `ids[idx:idx+batch]` chunking, with explicit fuel so that the kernel
can evaluate it (every step consumes at least one element, so fuel
`l.length` is exact). -/
def chunkListF : Nat → Nat → List α → List (List α)
  | _, _, [] => []
  | 0, _, l => [l]
  | fuel + 1, batch, x :: xs =>
      (x :: xs.take (batch - 1)) :: chunkListF fuel batch (xs.drop (batch - 1))

/-- `ids[idx:idx+batch]` chunking of the slice. -/
def chunkList (batch : Nat) (l : List α) : List (List α) :=
  chunkListF l.length batch l

/-- The batch loop of `_process_slice`: `done` holds the size of the last
completed batch and is flushed by the first wait-loop yield of the next
command (or by the final `yield done`). -/
def batchYields (done : Nat) : List (List α) → List Nat → List Int
  | [], _ => [(done : Int), -1]
  | c :: cs, polls =>
      let p := polls.headD 0
      (if p = 0 then [] else ((done : Int) :: List.replicate (p - 1) 0)) ++
        batchYields c.length cs polls.tail

/-- All yields of `_process_slice(ids, batch_size)`.  `prefetch` is
`some (polls, rows)` when the runner supplies `sql_get_object_info`: the
prefetch command is polled `polls` times while in flight (each poll
yielding 0) and its `fetchall()` result `rows` replaces the id list. -/
def processSliceYields (prefetch : Option (Nat × List α)) (ids : List α)
    (batch : Nat) (polls : List Nat) : List Int :=
  match prefetch with
  | none => batchYields 0 (chunkList batch ids) polls
  | some pf => List.replicate pf.1 0 ++ batchYields 0 (chunkList batch pf.2) polls

/-- `IndexWorker.continue_slice` on a worker whose `in_progress` generator
has `pending` yields left: with no slice in progress it returns `-1`;
otherwise it returns the next yield and clears `in_progress` when that
yield is negative. -/
def continue_slice (in_progress : Option (List Int)) : Int × Option (List Int) :=
  match in_progress with
  | none => (-1, none)
  | some pending =>
      match pending with
      | [] => (-1, none)
      | y :: rest => (y, if y < 0 then none else some rest)

/-! ### The indexer (`indexer/indexer.py`) -/

/-- The runner bound to one indexing pass. -/
inductive Runner where
  | rank (r : Nat)
  | boundary (r : Nat)
  | interpolation
  | postcode
deriving DecidableEq, Repr

/-- `Indexer.index_by_rank(minrank, maxrank)`: the list of passes run, in
order, each with its batch size.  `maxrank` is clamped to 30; the loop
covers `range(max(1, minrank), maxrank)`; when the clamped `maxrank` is 30
the tail indexes rank 0, the interpolations (batch 20) and rank 30
(batch 20), and otherwise a final pass indexes `maxrank` itself. -/
def index_by_rank (minrank maxrank : Nat) : List (Runner × Nat) :=
  let maxrank := min maxrank 30
  ((List.range' (max 1 minrank) (maxrank - max 1 minrank)).map
      (fun r => (Runner.rank r, 1))) ++
    (if maxrank = 30 then
      [(Runner.rank 0, 1), (Runner.interpolation, 20), (Runner.rank 30, 20)]
     else [(Runner.rank maxrank, 1)])

/-- `Indexer.index_boundaries(minrank, maxrank)`: boundary passes for
`range(max(minrank, 4), min(maxrank, 26))`. -/
def index_boundaries (minrank maxrank : Nat) : List (Runner × Nat) :=
  (List.range' (max minrank 4) (min maxrank 26 - max minrank 4)).map
    (fun r => (Runner.boundary r, 1))

/-! ### Ordered-dictionary key lemmas -/

theorem odGet_odSet_self (l : List (K × V)) (k : K) (v : V) :
    odGet (odSet l k v) k = some v := by
  induction l with
  | nil => simp [odSet, odGet]
  | cons e rest ih =>
      obtain ⟨k', w⟩ := e
      by_cases h : k' = k
      · subst h; simp [odSet, odGet]
      · simp [odSet, odGet, h, ih]

theorem odGet_odSet_ne (l : List (K × V)) (k k' : K) (v : V) (h : k ≠ k') :
    odGet (odSet l k v) k' = odGet l k' := by
  induction l with
  | nil => simp [odSet, odGet, h]
  | cons e rest ih =>
      obtain ⟨k0, w⟩ := e
      by_cases h0 : k0 = k
      · subst h0; simp [odSet, odGet, h]
      · simp only [odSet, if_neg h0, odGet]
        by_cases h1 : k0 = k'
        · simp [h1]
        · simp [h1, ih]

theorem odSet_keys_of_not_mem (l : List (K × V)) (k : K) (v : V)
    (h : k ∉ l.map Prod.fst) :
    (odSet l k v).map Prod.fst = l.map Prod.fst ++ [k] := by
  induction l with
  | nil => simp [odSet]
  | cons e rest ih =>
      obtain ⟨k0, w⟩ := e
      simp only [List.map_cons, List.mem_cons] at h
      push_neg at h
      simp [odSet, Ne.symm h.1, ih h.2]

theorem odSet_keys_mem (l : List (K × V)) (k : K) (v : V) (k' : K) :
    k' ∈ (odSet l k v).map Prod.fst ↔ (k' = k ∨ k' ∈ l.map Prod.fst) := by
  induction l with
  | nil => simp [odSet]
  | cons e rest ih =>
      obtain ⟨k0, w⟩ := e
      by_cases h0 : k0 = k
      · subst h0
        simp [odSet]
      · simp only [odSet, if_neg h0, List.map_cons, List.mem_cons, ih]
        tauto

theorem odGet_eq_none_iff (l : List (K × V)) (k : K) :
    odGet l k = none ↔ k ∉ l.map Prod.fst := by
  induction l with
  | nil => simp [odGet]
  | cons e rest ih =>
      obtain ⟨k0, w⟩ := e
      by_cases h0 : k0 = k
      · subst h0; simp [odGet]
      · simp [odGet, h0, ih, Ne.symm h0]

/-! ### Worker-slice lemmas (claim C2) -/

theorem chunkListF_spec (b : Nat) :
    ∀ (fuel : Nat) (l : List α), l.length ≤ fuel →
      (∀ c ∈ chunkListF fuel b l, c ≠ []) ∧
      ((chunkListF fuel b l).map List.length).sum = l.length := by
  intro fuel
  induction fuel with
  | zero =>
      intro l hl
      obtain rfl : l = [] := List.length_eq_zero.mp (Nat.le_zero.mp hl)
      simp [chunkListF]
  | succ n ih =>
      intro l hl
      cases l with
      | nil => simp [chunkListF]
      | cons x xs =>
          have hrec := ih (xs.drop (b - 1))
            (by
              have := List.length_drop (b - 1) xs
              simp only [List.length_cons] at hl
              omega)
          constructor
          · intro c hc
            simp only [chunkListF] at hc
            rcases List.mem_cons.mp hc with h | h
            · subst h; simp
            · exact hrec.1 c h
          · simp only [chunkListF, List.map_cons, List.sum_cons, hrec.2,
              List.length_drop, List.length_cons, List.length_take]
            omega

theorem chunkList_spec (b : Nat) (n : Nat) (l : List α) (hl : l.length ≤ n) :
    (∀ c ∈ chunkList b l, c ≠ []) ∧
    ((chunkList b l).map List.length).sum = l.length :=
  chunkListF_spec b l.length l (Nat.le_refl _)

theorem batchYields_spec (cs : List (List α)) (polls : List Nat) (done : Nat)
    (hlen : polls.length = cs.length) (hpos : ∀ p ∈ polls, 1 ≤ p)
    (hcs : ∀ c ∈ cs, c ≠ []) :
    (batchYields done cs polls).filter (fun y => decide (0 < y))
        = (if done = 0 then [] else [(done : Int)])
            ++ cs.map (fun c => (c.length : Int))
    ∧ (batchYields done cs polls).getLast? = some (-1)
    ∧ (batchYields done cs polls).count (-1) = 1
    ∧ ∀ y ∈ batchYields done cs polls, y = -1 ∨ 0 ≤ y := by
  induction cs generalizing polls done with
  | nil =>
      have hne : ((-1 : Int) = -1) := rfl
      refine ⟨?_, rfl, ?_, ?_⟩
      · by_cases hd : done = 0
        · subst hd; simp [batchYields]
        · have : (0 : Int) < done := by omega
          simp [batchYields, hd, this]
      · have : (done : Int) ≠ -1 := by omega
        simp [batchYields, List.count_cons, this]
      · intro y hy
        simp only [batchYields, List.mem_cons, List.not_mem_nil, or_false] at hy
        rcases hy with h | h
        · subst h; right; exact Int.natCast_nonneg _
        · subst h; left; rfl
  | cons c cs ih =>
      cases polls with
      | nil => simp at hlen
      | cons p ps =>
          have hp : 1 ≤ p := hpos p (List.mem_cons_self _ _)
          have hpne : ¬ p = 0 := by omega
          have hclen : ¬ c.length = 0 := by
            have := hcs c (List.mem_cons_self _ _)
            simpa [List.length_eq_zero] using this
          obtain ⟨ih1, ih2, ih3, ih4⟩ := ih ps c.length
            (by simpa using hlen)
            (fun q hq => hpos q (List.mem_cons_of_mem _ hq))
            (fun c' h => hcs _ (List.mem_cons_of_mem _ h))
          simp only [batchYields, List.headD_cons, List.tail_cons, if_neg hpne]
          refine ⟨?_, ?_, ?_, ?_⟩
          · rw [List.filter_append, List.filter_cons, ih1]
            by_cases hd : done = 0
            · subst hd
              simp [List.filter_replicate, hclen]
            · have : (0 : Int) < done := by omega
              simp [List.filter_replicate, hclen, this, hd]
          · rw [List.getLast?_append, ih2]; rfl
          · rw [List.count_append, List.count_cons, ih3]
            have h1 : (done : Int) ≠ -1 := by omega
            simp [List.count_replicate, h1]
          · intro y hy
            rcases List.mem_append.mp hy with h | h
            · rcases List.mem_cons.mp h with h | h
              · subst h; right; exact Int.natCast_nonneg _
              · right
                have := List.eq_of_mem_replicate h
                omega
            · exact ih4 y h

theorem intCast_length_sum (l : List (List α)) :
    ((l.map (fun c => (c.length : Int))).sum) = ((l.map List.length).sum : Int) := by
  induction l with
  | nil => rfl
  | cons x xs ih => simp [ih]

/-- Claim C2 (amended): for a slice whose every sub-command is observed
still in flight at least once (each command is polled `≥ 1` times before
completing), the positive values returned over the slice are exactly the
batch sizes, in order (hence they sum to the number of rows processed);
the final `-1` is yielded exactly once and is the last yield; every other
yield is non-negative; and `continue_slice` returns `-1` and stays idle
both on a worker with no slice in progress and on the re-entry that
consumes the `-1` terminator. -/
theorem claim_C2 {α : Type} (prefetch : Option (Nat × List α)) (ids : List α)
    (batch : Nat) (polls : List Nat)
    (hlen : polls.length
      = (chunkList batch (match prefetch with | none => ids | some pf => pf.2)).length)
    (hpos : ∀ p ∈ polls, 1 ≤ p) :
    (processSliceYields prefetch ids batch polls).filter (fun y => decide (0 < y))
        = (chunkList batch
            (match prefetch with | none => ids | some pf => pf.2)).map
              (fun c => (c.length : Int))
    ∧ ((processSliceYields prefetch ids batch polls).filter
          (fun y => decide (0 < y))).sum
        = ((match prefetch with | none => ids | some pf => pf.2).length : Int)
    ∧ (processSliceYields prefetch ids batch polls).getLast? = some (-1)
    ∧ (processSliceYields prefetch ids batch polls).count (-1) = 1
    ∧ (∀ y ∈ processSliceYields prefetch ids batch polls, y = -1 ∨ 0 ≤ y)
    ∧ continue_slice none = (-1, none)
    ∧ (∀ rest : List Int, continue_slice (some ((-1) :: rest)) = (-1, none)) := by
  cases prefetch with
  | none =>
      have hchunk := chunkList_spec (α := α) batch ids.length ids (Nat.le_refl _)
      obtain ⟨h1, h2, h3, h4⟩ := batchYields_spec (chunkList batch ids) polls 0
        (by simpa using hlen) hpos hchunk.1
      have h1' : (batchYields 0 (chunkList batch ids) polls).filter
          (fun y => decide (0 < y))
          = (chunkList batch ids).map (fun c => (c.length : Int)) := by
        simpa using h1
      have hys : processSliceYields none ids batch polls
          = batchYields 0 (chunkList batch ids) polls := rfl
      refine ⟨?_, ?_, ?_, ?_, ?_, rfl, fun rest => rfl⟩
      · rw [hys]; simpa using h1'
      · rw [hys, h1', intCast_length_sum, hchunk.2]
      · rw [hys, h2]
      · rw [hys, h3]
      · intro y hy
        rw [hys] at hy
        exact h4 y hy
  | some pf =>
      have hchunk := chunkList_spec (α := α) batch pf.2.length pf.2 (Nat.le_refl _)
      obtain ⟨h1, h2, h3, h4⟩ := batchYields_spec (chunkList batch pf.2) polls 0
        (by simpa using hlen) hpos hchunk.1
      have h1' : (batchYields 0 (chunkList batch pf.2) polls).filter
          (fun y => decide (0 < y))
          = (chunkList batch pf.2).map (fun c => (c.length : Int)) := by
        simpa using h1
      have hys : processSliceYields (some pf) ids batch polls
          = List.replicate pf.1 0 ++ batchYields 0 (chunkList batch pf.2) polls := rfl
      refine ⟨?_, ?_, ?_, ?_, ?_, rfl, fun rest => rfl⟩
      · rw [hys, List.filter_append, h1']
        simpa [List.filter_replicate] using rfl
      · rw [hys, List.filter_append, h1']
        simp only [List.filter_replicate]
        rw [if_neg (by simp)]
        rw [List.nil_append, intCast_length_sum, hchunk.2]
      · rw [hys, List.getLast?_append, h2]; rfl
      · rw [hys, List.count_append, h3, List.count_replicate]
        simp
      · intro y hy
        rw [hys] at hy
        rcases List.mem_append.mp hy with h | h
        · right
          have := List.eq_of_mem_replicate h
          omega
        · exact h4 y h

/-- Claim C2 (counterexample): when a sub-command completes without ever
being observed in flight, a batch count is overwritten and never returned.
With ids `[0, 1]`, batch size 1 and poll schedule `[1, 0]` (the second
UPDATE is already done at its first `is_done` check), the yields are
`[0, 1, -1]`: the positive returns sum to 1 although 2 rows were
processed, contradicting the claim that the positive return values sum to
the number of rows processed. -/
theorem claim_C2_counterexample :
    processSliceYields (none : Option (Nat × List Nat)) [0, 1] 1 [1, 0] = [0, 1, -1]
    ∧ ((processSliceYields (none : Option (Nat × List Nat)) [0, 1] 1 [1, 0]).filter
        (fun y => decide (0 < y))).sum = 1
    ∧ (([0, 1] : List Nat).length : Int) = 2 :=
  ⟨rfl, rfl, rfl⟩

theorem claim_C2_witness :
    ([1, 1] : List Nat).length
        = (chunkList 1 (match (none : Option (Nat × List Nat)) with
            | none => [0, 1] | some pf => pf.2)).length
    ∧ (∀ p ∈ ([1, 1] : List Nat), 1 ≤ p)
    ∧ (processSliceYields (none : Option (Nat × List Nat)) [0, 1] 1 [1, 1]).count (-1) = 1
    ∧ ((processSliceYields (none : Option (Nat × List Nat)) [0, 1] 1 [1, 1]).filter
        (fun y => decide (0 < y))).sum
        = (((match (none : Option (Nat × List Nat)) with
            | none => [0, 1] | some pf => pf.2) : List Nat).length : Int) := by
  refine ⟨by decide, by decide, ?_, ?_⟩
  · exact (claim_C2 none [0, 1] 1 [1, 1] (by decide) (by decide)).2.2.2.1
  · exact (claim_C2 none [0, 1] 1 [1, 1] (by decide) (by decide)).2.1

/-- Claim C3 (counterexample): `index_by_rank(0, 0)` is not a no-op: the
loop range is empty, but because the clamped maximum rank (0) is not 30
the final else-branch still runs a pass for `maxrank` itself. -/
theorem claim_C3_counterexample :
    index_by_rank 0 0 ≠ [] ∧ index_by_rank 0 0 = [(Runner.rank 0, 1)] :=
  ⟨by decide, rfl⟩

/-- Claim C3 (amended): `index_by_rank(0, 0)` runs exactly one indexing
pass, `RankRunner(0)` with batch size 1 — the rank loop is empty (lower
bound clamped to 1) and, the maximum rank not being 30, no interpolation
or rank-30 tail pass runs, but the else-branch indexes `maxrank` itself. -/
theorem claim_C3 :
    index_by_rank 0 0 = [(Runner.rank 0, 1)]
    ∧ Runner.interpolation ∉ (index_by_rank 0 0).map Prod.fst :=
  ⟨rfl, by decide⟩

/-- Environment used by the closed test theorems: every database function
returns a fixed value. -/
def legacyTestEnv : LegacyEnv :=
  { make_keywords := fun _ => "kw"
    word_ids_from_name := fun _ => "wids"
    place_terms := fun _ => ("psearch", "pmatch")
    address_terms := fun _ => ("aids", "wids")
    create_housenumbers := fun _ => ("htok", "hcanon")
    housenumber_token := fun i => toString i }

/-- Claim C5 (code bug): the postcode cache is seeded with `None` values,
and `_LRU.get` treats a stored `None` as a miss, so tokenizing a place
whose postcode `'12345'` was seeded from the `word` table still issues the
`create_postcode_id` query — and since the generator also returns `None`,
tokenizing the same postcode again with the resulting cache issues the
query again.  This contradicts both the claim and `_TokenCache`'s own
docstring ("Cache for token information to avoid repeated database
queries"). -/
theorem claim_C5_code_bug :
    (process_place legacyTestEnv (tokenCacheInit legacyTestEnv ["12345"])
        { address := some [("postcode", "12345")] }).2.2
      = [DbCall.createPostcode "12345"]
    ∧ (process_place legacyTestEnv
        (process_place legacyTestEnv (tokenCacheInit legacyTestEnv ["12345"])
            { address := some [("postcode", "12345")] }).2.1
        { address := some [("postcode", "12345")] }).2.2
      = [DbCall.createPostcode "12345"] :=
  ⟨rfl, rfl⟩

/-- Claim C8 (code bug): `LegacyIcuNameAnalyzer.add_special_phrase` builds
its guarded INSERT but then calls `cur.execute(cur, sql, values)`, passing
the cursor object where the query string belongs; for every input the
operation raises `TypeError` instead of updating the `word` table (the
guarded insert itself, modelled from the spec, is idempotent — see
`add_special_phrase_guarded_insert_idem`). -/
theorem claim_C8_failing (normalize msw : String → String)
    (name osm_key osm_value op : String) (table : List WordRow) :
    add_special_phrase normalize msw name osm_key osm_value op table
      = Except.error "TypeError: argument 1 must be a string or unicode object" :=
  rfl

/-! ### Helper lemmas about the analyzers -/

theorem odGet_isSome_of_key_mem (l : List (K × V)) (k : K)
    (h : k ∈ l.map Prod.fst) : ∃ v, odGet l k = some v := by
  induction l with
  | nil => simp at h
  | cons e rest ih =>
      obtain ⟨k0, w⟩ := e
      by_cases h0 : k0 = k
      · subst h0
        exact ⟨w, by simp [odGet]⟩
      · simp only [List.map_cons, List.mem_cons] at h
        rcases h with h | h
        · exact absurd h.symm h0
        · obtain ⟨v, hv⟩ := ih h
          exact ⟨v, by simp [odGet, h0, hv]⟩

theorem add_postcode_calls (cache : TokenCache) (pc : String) :
    ∀ c ∈ (add_postcode cache pc).2, ∃ p, c = DbCall.createPostcode p := by
  intro c hc
  unfold add_postcode at hc
  split at hc
  · simp at hc
  · simp only at hc
    split at hc
    · exact ⟨_, (List.mem_singleton.mp hc)⟩
    · simp at hc

theorem add_street_calls (env : LegacyEnv) (cache : TokenCache)
    (data : List (String × TokVal)) (v : String) :
    ∀ c ∈ (add_street env cache data v).2.2, c = DbCall.streetTerms := by
  intro c hc
  unfold add_street at hc
  simp only at hc
  split at hc
  · exact List.mem_singleton.mp hc
  · simp at hc

theorem add_place_calls (env : LegacyEnv) (cache : TokenCache)
    (data : List (String × TokVal)) (v : String) :
    ∀ c ∈ (add_place env cache data v).2.2, c = DbCall.placeTerms := by
  intro c hc
  unfold add_place at hc
  simp only at hc
  split at hc
  · exact List.mem_singleton.mp hc
  · simp at hc

theorem add_address_terms_aux (env : LegacyEnv) (terms : List (String × String)) :
    ∀ (start : List (String × Option (String × String)) × TokenCache × List DbCall),
      (∀ c ∈ start.2.2, c = DbCall.addrTerms) →
      ∀ c ∈ (terms.foldl (fun acc kv =>
          let r := lruGet acc.2.1.address_terms kv.2
            (fun name => some (env.address_terms name))
          (odSet acc.1 kv.1 r.1, { acc.2.1 with address_terms := r.2.1 },
           acc.2.2 ++ if r.2.2 then [DbCall.addrTerms] else [])) start).2.2,
        c = DbCall.addrTerms := by
  induction terms with
  | nil => intro start hstart c hc; exact hstart c hc
  | cons kv rest ih =>
      intro start hstart c hc
      refine ih _ ?_ c hc
      intro c' hc'
      simp only at hc'
      rcases List.mem_append.mp hc' with h | h
      · exact hstart c' h
      · split at h
        · exact List.mem_singleton.mp h
        · simp at h

theorem add_address_terms_calls (env : LegacyEnv) (cache : TokenCache)
    (data : List (String × TokVal)) (terms : List (String × String)) :
    ∀ c ∈ (add_address_terms env cache data terms).2.2, c = DbCall.addrTerms := by
  intro c hc
  unfold add_address_terms at hc
  simp only at hc
  exact add_address_terms_aux env terms ([], cache, []) (by simp) c hc

theorem add_address_terms_get (env : LegacyEnv) (cache : TokenCache)
    (data : List (String × TokVal)) (terms : List (String × String))
    (k : String) (h : "addr" ≠ k) :
    odGet (add_address_terms env cache data terms).1 k = odGet data k := by
  unfold add_address_terms
  exact odGet_odSet_ne _ _ _ _ h

theorem add_postcode_cache_hn (cache : TokenCache) (pc : String) :
    (add_postcode cache pc).1.cached_housenumbers = cache.cached_housenumbers := by
  unfold add_postcode
  split <;> rfl

/-- One `address.items()` iteration: its effect on the collected
housenumbers, on the immutable housenumber cache, on the call list and on
the `token_info` keys. -/
theorem legacyAddressStep_char (env : LegacyEnv) (acc : LegacyAcc)
    (kv : String × String) :
    (legacyAddressStep env acc kv).hnrs
        = acc.hnrs ++ (if isHnrKey kv.1 then [kv.2] else [])
    ∧ (legacyAddressStep env acc kv).cache.cached_housenumbers
        = acc.cache.cached_housenumbers
    ∧ (∃ extra, (legacyAddressStep env acc kv).calls = acc.calls ++ extra
        ∧ ∀ c ∈ extra, c = DbCall.streetTerms ∨ c = DbCall.placeTerms
            ∨ ∃ p, c = DbCall.createPostcode p)
    ∧ (∀ k ∈ (legacyAddressStep env acc kv).data.map Prod.fst,
        k ∈ acc.data.map Prod.fst ∨ k = "street" ∨ k = "place_search" ∨ k = "place_match") := by
  obtain ⟨key, v⟩ := kv
  unfold legacyAddressStep
  by_cases h1 : key = "postcode"
  · subst h1
    rw [if_pos rfl]
    refine ⟨by simp [isHnrKey], add_postcode_cache_hn acc.cache v,
      ⟨(add_postcode acc.cache v).2, rfl, ?_⟩, ?_⟩
    · intro c hc
      obtain ⟨p, hp⟩ := add_postcode_calls acc.cache v c hc
      exact Or.inr (Or.inr ⟨p, hp⟩)
    · intro k hk; exact Or.inl hk
  · rw [if_neg h1]
    by_cases h2 : key = "housenumber" ∨ key = "streetnumber" ∨ key = "conscriptionnumber"
    · rw [if_pos h2]
      have : isHnrKey key = true := by
        rcases h2 with h | h | h <;> simp [isHnrKey, h]
      refine ⟨by simp [this], rfl, ⟨[], by simp, by simp⟩, fun k hk => Or.inl hk⟩
    · rw [if_neg h2]
      have hhnr : isHnrKey key = false := by
        simp only [isHnrKey]
        push_neg at h2
        simp [h2.1, h2.2.1, h2.2.2]
      by_cases h3 : key = "street"
      · subst h3
        rw [if_pos rfl]
        refine ⟨by simp [hhnr], rfl,
          ⟨(add_street env acc.cache acc.data v).2.2, rfl, ?_⟩, ?_⟩
        · intro c hc
          exact Or.inl (add_street_calls env acc.cache acc.data v c hc)
        · intro k hk
          unfold add_street at hk
          simp only at hk
          rcases (odSet_keys_mem _ _ _ _).mp hk with h | h
          · exact Or.inr (Or.inl h)
          · exact Or.inl h
      · rw [if_neg h3]
        by_cases h4 : key = "place"
        · subst h4
          rw [if_pos rfl]
          refine ⟨by simp [hhnr], rfl,
            ⟨(add_place env acc.cache acc.data v).2.2, rfl, ?_⟩, ?_⟩
          · intro c hc
            exact Or.inr (Or.inl (add_place_calls env acc.cache acc.data v c hc))
          · intro k hk
            unfold add_place at hk
            simp only at hk
            split at hk
            · rcases (odSet_keys_mem _ _ _ _).mp hk with h | h
              · exact Or.inr (Or.inr (Or.inr h))
              · rcases (odSet_keys_mem _ _ _ _).mp h with h' | h'
                · exact Or.inr (Or.inr (Or.inl h'))
                · exact Or.inl h'
            · rcases (odSet_keys_mem _ _ _ _).mp hk with h | h
              · exact Or.inr (Or.inr (Or.inr h))
              · rcases (odSet_keys_mem _ _ _ _).mp h with h' | h'
                · exact Or.inr (Or.inr (Or.inl h'))
                · exact Or.inl h'
        · rw [if_neg h4]
          split
          · exact ⟨by simp [hhnr], rfl, ⟨[], by simp, by simp⟩, fun k hk => Or.inl hk⟩
          · exact ⟨by simp [hhnr], rfl, ⟨[], by simp, by simp⟩, fun k hk => Or.inl hk⟩

/-- The whole `address.items()` loop. -/
theorem legacy_fold_char (env : LegacyEnv) (address : List (String × String))
    (base : LegacyAcc) :
    (address.foldl (legacyAddressStep env) base).hnrs
        = base.hnrs ++ (address.filter (fun kv => isHnrKey kv.1)).map Prod.snd
    ∧ (address.foldl (legacyAddressStep env) base).cache.cached_housenumbers
        = base.cache.cached_housenumbers
    ∧ (∃ extra, (address.foldl (legacyAddressStep env) base).calls
          = base.calls ++ extra
        ∧ ∀ c ∈ extra, c = DbCall.streetTerms ∨ c = DbCall.placeTerms
            ∨ ∃ p, c = DbCall.createPostcode p)
    ∧ (∀ k ∈ (address.foldl (legacyAddressStep env) base).data.map Prod.fst,
        k ∈ base.data.map Prod.fst ∨ k = "street" ∨ k = "place_search"
          ∨ k = "place_match") := by
  induction address generalizing base with
  | nil => exact ⟨by simp, rfl, ⟨[], by simp, by simp⟩, fun k hk => Or.inl hk⟩
  | cons kv rest ih =>
      obtain ⟨s1, s2, ⟨e1, he1, he1'⟩, s4⟩ := legacyAddressStep_char env base kv
      obtain ⟨t1, t2, ⟨e2, he2, he2'⟩, t4⟩ := ih (legacyAddressStep env base kv)
      refine ⟨?_, ?_, ⟨e1 ++ e2, ?_, ?_⟩, ?_⟩
      · simp only [List.foldl_cons, t1, s1, List.filter_cons]
        by_cases h : isHnrKey kv.1
        · simp [h, List.append_assoc]
        · simp [h]
      · simp only [List.foldl_cons, t2, s2]
      · simp only [List.foldl_cons, he2, he1, List.append_assoc]
      · intro c hc
        rcases List.mem_append.mp hc with h | h
        · exact he1' c h
        · exact he2' c h
      · intro k hk
        simp only [List.foldl_cons] at hk
        rcases t4 k hk with h | h
        · exact s4 k h
        · exact Or.inr h

theorem legacyBase_hnrs (env : LegacyEnv) (cache : TokenCache) (place : Place) :
    (legacyBase env cache place).hnrs = [] := by
  unfold legacyBase
  split <;> rfl

theorem legacyBase_addr_terms (env : LegacyEnv) (cache : TokenCache) (place : Place) :
    (legacyBase env cache place).addr_terms = [] := by
  unfold legacyBase
  split <;> rfl

theorem legacyBase_cache (env : LegacyEnv) (cache : TokenCache) (place : Place) :
    (legacyBase env cache place).cache = cache := by
  unfold legacyBase
  split <;> rfl

theorem legacyBase_calls (env : LegacyEnv) (cache : TokenCache) (place : Place) :
    ∀ c ∈ (legacyBase env cache place).calls,
      c = DbCall.makeKeywords ∨ ∃ cc ns, c = DbCall.countryNames cc ns := by
  intro c hc
  unfold legacyBase at hc
  split at hc
  · simp only at hc
    rcases List.mem_append.mp hc with h | h
    · exact Or.inl (List.mem_singleton.mp h)
    · split at h
      · split at h
        · exact Or.inr ⟨_, _, List.mem_singleton.mp h⟩
        · simp at h
      · simp at h
  · simp at hc

theorem legacyBase_keys (env : LegacyEnv) (cache : TokenCache) (place : Place) :
    ∀ k ∈ (legacyBase env cache place).data.map Prod.fst, k = "names" := by
  intro k hk
  unfold legacyBase at hk
  split at hk
  · simpa [odSet] using hk
  · simp at hk

theorem legacyHnrFinish_hit (env : LegacyEnv) (acc : LegacyAcc) (h v : String)
    (hh : acc.hnrs = [h]) (hv : odGet acc.cache.cached_housenumbers h = some v) :
    legacyHnrFinish env acc
      = { acc with
          data := odSet (odSet acc.data "hnr_tokens" (.str v)) "hnr" (.str h) } := by
  unfold legacyHnrFinish
  rw [hh, if_pos (by simp)]
  unfold add_housenumbers
  simp [hv]

theorem legacyAddrFinish_get (env : LegacyEnv) (acc : LegacyAcc) (k : String)
    (hk : "addr" ≠ k) :
    odGet (legacyAddrFinish env acc).data k = odGet acc.data k := by
  unfold legacyAddrFinish
  split
  · exact add_address_terms_get env acc.cache acc.data acc.addr_terms k hk
  · rfl

theorem legacyAddrFinish_calls (env : LegacyEnv) (acc : LegacyAcc) :
    ∃ extra, (legacyAddrFinish env acc).calls = acc.calls ++ extra
      ∧ ∀ c ∈ extra, c = DbCall.addrTerms := by
  unfold legacyAddrFinish
  split
  · exact ⟨_, rfl, add_address_terms_calls env acc.cache acc.data acc.addr_terms⟩
  · exact ⟨[], by simp, by simp⟩

theorem legacyAddrFinish_keys (env : LegacyEnv) (acc : LegacyAcc) :
    ∀ k ∈ (legacyAddrFinish env acc).data.map Prod.fst,
      k ∈ acc.data.map Prod.fst ∨ k = "addr" := by
  intro k hk
  unfold legacyAddrFinish at hk
  split at hk
  · unfold add_address_terms at hk
    simp only at hk
    rcases (odSet_keys_mem _ _ _ _).mp hk with h | h
    · exact Or.inr h
    · exact Or.inl h
  · exact Or.inl hk

theorem process_place_addr (env : LegacyEnv) (cache : TokenCache) (place : Place)
    (htr : truthy place.address = true) :
    process_place env cache place
      = ((legacyAddrFinish env (legacyHnrFinish env
            ((place.address.getD []).foldl (legacyAddressStep env)
              (legacyBase env cache place)))).data,
         (legacyAddrFinish env (legacyHnrFinish env
            ((place.address.getD []).foldl (legacyAddressStep env)
              (legacyBase env cache place)))).cache,
         (legacyAddrFinish env (legacyHnrFinish env
            ((place.address.getD []).foldl (legacyAddressStep env)
              (legacyBase env cache place)))).calls) := by
  unfold process_place
  rw [if_pos htr]

/-! #### ICU stage lemmas -/

theorem icuNamesPart_calls (env : IcuEnv) (place : Place) :
    ∀ c ∈ (icuNamesPart env place).2,
      c = DbCall.nameTokens ∨ ∃ cc ns, c = DbCall.countryNames cc ns := by
  intro c hc
  unfold icuNamesPart at hc
  split at hc
  · simp only at hc
    rcases List.mem_append.mp hc with h | h
    · exact Or.inl (List.mem_singleton.mp h)
    · split at h
      · split at h
        · exact Or.inr ⟨_, _, List.mem_singleton.mp h⟩
        · simp at h
      · simp at h
  · simp at hc

theorem icuNamesPart_keys (env : IcuEnv) (place : Place) :
    ∀ k ∈ (icuNamesPart env place).1.map Prod.fst, k = "names" := by
  intro k hk
  unfold icuNamesPart at hk
  split at hk
  · simpa [odSet] using hk
  · simp at hk

theorem get_street_place_terms_calls (env : IcuEnv) (st : IcuState) (nm : String) :
    ∀ c ∈ (get_street_place_terms env st nm).2.2.2, c = DbCall.streetPlaceTerms := by
  intro c hc
  unfold get_street_place_terms flruGet at hc
  simp only at hc
  split at hc
  · simp at hc
  · unfold street_place_terms_body at hc
    simp only at hc
    split at hc
    · simp at hc
    · exact List.mem_singleton.mp hc

theorem get_addr_terms_calls (env : IcuEnv) (st : IcuState) (nm : String) :
    ∀ c ∈ (get_addr_terms env st nm).2.2.2, c = DbCall.addrTerms := by
  intro c hc
  unfold get_addr_terms flruGet at hc
  simp only at hc
  split at hc
  · simp at hc
  · unfold addr_terms_body at hc
    simp only at hc
    split at hc
    · simp at hc
    · exact List.mem_singleton.mp hc

theorem create_postcode_id_cached_calls (st : IcuState) (pc : String) :
    ∀ c ∈ (create_postcode_id_cached st pc).2.2, ∃ p, c = DbCall.createPostcode p := by
  intro c hc
  unfold create_postcode_id_cached flruGet at hc
  simp only at hc
  split at hc
  · simp at hc
  · exact ⟨pc, List.mem_singleton.mp hc⟩

theorem icuHnrStage_hit (env : IcuEnv) (address : List (String × String))
    (r : IcuRes) (h v : String)
    (hh : (address.filter (fun kv => isHnrKey kv.1)).map Prod.snd = [h])
    (hv : odGet r.st.cached_housenumbers [h] = some v) :
    icuHnrStage env address r
      = { r with
          token_info := odSet (odSet r.token_info "hnr_search" (.str v))
            "hnr_match" (.str ([h].headD "")) } := by
  unfold icuHnrStage
  rw [hh, if_pos (by simp)]
  unfold get_housenumber_ids
  simp [hv]

theorem icuPostcodeStage_token_info (address : List (String × String)) (r : IcuRes) :
    (icuPostcodeStage address r).token_info = r.token_info := by
  unfold icuPostcodeStage
  split
  · split <;> rfl
  · rfl

theorem icuPostcodeStage_calls (address : List (String × String)) (r : IcuRes) :
    ∃ extra, (icuPostcodeStage address r).calls = r.calls ++ extra
      ∧ ∀ c ∈ extra, ∃ p, c = DbCall.createPostcode p := by
  unfold icuPostcodeStage
  split
  · split
    · exact ⟨_, rfl, create_postcode_id_cached_calls _ _⟩
    · exact ⟨[], by simp, by simp⟩
  · exact ⟨[], by simp, by simp⟩

theorem icuStreetPlaceStage_get (env : IcuEnv) (address : List (String × String))
    (atype : String) (r : IcuRes) (k : String)
    (h1 : atype ++ "_match" ≠ k) (h2 : atype ++ "_search" ≠ k) :
    odGet (icuStreetPlaceStage env address atype r).token_info k
      = odGet r.token_info k := by
  unfold icuStreetPlaceStage
  split
  · simp only
    rw [odGet_odSet_ne _ _ _ _ h2, odGet_odSet_ne _ _ _ _ h1]
  · rfl

theorem icuStreetPlaceStage_calls (env : IcuEnv) (address : List (String × String))
    (atype : String) (r : IcuRes) :
    ∃ extra, (icuStreetPlaceStage env address atype r).calls = r.calls ++ extra
      ∧ ∀ c ∈ extra, c = DbCall.streetPlaceTerms := by
  unfold icuStreetPlaceStage
  split
  · exact ⟨_, rfl, get_street_place_terms_calls _ _ _⟩
  · exact ⟨[], by simp, by simp⟩

theorem icuStreetPlaceStage_keys (env : IcuEnv) (address : List (String × String))
    (atype : String) (r : IcuRes) :
    ∀ k ∈ (icuStreetPlaceStage env address atype r).token_info.map Prod.fst,
      k ∈ r.token_info.map Prod.fst ∨ k = atype ++ "_match" ∨ k = atype ++ "_search" := by
  intro k hk
  unfold icuStreetPlaceStage at hk
  split at hk
  · simp only at hk
    rcases (odSet_keys_mem _ _ _ _).mp hk with h | h
    · exact Or.inr (Or.inr h)
    · rcases (odSet_keys_mem _ _ _ _).mp h with h' | h'
      · exact Or.inr (Or.inl h')
      · exact Or.inl h'
  · exact Or.inl hk

theorem icuAddrStage_aux (env : IcuEnv) (items : List (String × String)) :
    ∀ (start : List (String × (String × String)) × IcuState × List DbCall),
      (∀ c ∈ start.2.2, c ∈ start.2.2) →
      ∃ extra, (items.foldl (fun acc kv =>
          let t := get_addr_terms env acc.2.1 kv.2
          (odSet acc.1 kv.1 t.1, t.2.1, acc.2.2 ++ t.2.2.2)) start).2.2
        = start.2.2 ++ extra ∧ ∀ c ∈ extra, c = DbCall.addrTerms := by
  induction items with
  | nil => intro start _; exact ⟨[], by simp, by simp⟩
  | cons kv rest ih =>
      intro start _
      obtain ⟨extra, hextra, hextra'⟩ := ih
        (odSet start.1 kv.1 (get_addr_terms env start.2.1 kv.2).1,
         (get_addr_terms env start.2.1 kv.2).2.1,
         start.2.2 ++ (get_addr_terms env start.2.1 kv.2).2.2.2) (fun c hc => hc)
      refine ⟨(get_addr_terms env start.2.1 kv.2).2.2.2 ++ extra, ?_, ?_⟩
      · simp only [List.foldl_cons]
        rw [hextra, List.append_assoc]
      · intro c hc
        rcases List.mem_append.mp hc with h | h
        · exact get_addr_terms_calls env start.2.1 kv.2 c h
        · exact hextra' c h

theorem icuAddrStage_calls (env : IcuEnv) (address : List (String × String))
    (r : IcuRes) :
    ∃ extra, (icuAddrStage env address r).calls = r.calls ++ extra
      ∧ ∀ c ∈ extra, c = DbCall.addrTerms := by
  unfold icuAddrStage
  obtain ⟨extra, hextra, hextra'⟩ := icuAddrStage_aux env
    (address.filter (fun kv => ! icuReservedKey kv.1)) ([], r.st, r.calls)
    (fun c hc => hc)
  exact ⟨extra, by simp only; rw [hextra], hextra'⟩

theorem icuAddrStage_get (env : IcuEnv) (address : List (String × String))
    (r : IcuRes) (k : String) (hk : "addr" ≠ k) :
    odGet (icuAddrStage env address r).token_info k = odGet r.token_info k := by
  unfold icuAddrStage
  exact odGet_odSet_ne _ _ _ _ hk

theorem icuAddrStage_keys (env : IcuEnv) (address : List (String × String))
    (r : IcuRes) :
    ∀ k ∈ (icuAddrStage env address r).token_info.map Prod.fst,
      k ∈ r.token_info.map Prod.fst ∨ k = "addr" := by
  intro k hk
  unfold icuAddrStage at hk
  simp only at hk
  rcases (odSet_keys_mem _ _ _ _).mp hk with h | h
  · exact Or.inr h
  · exact Or.inl h

theorem tokenize_addr (env : IcuEnv) (st : IcuState) (place : Place)
    (htr : truthy place.address = true) :
    tokenize env st place
      = icuAddrStage env (place.address.getD [])
          (icuStreetPlaceStage env (place.address.getD []) "place"
            (icuStreetPlaceStage env (place.address.getD []) "street"
              (icuPostcodeStage (place.address.getD [])
                (icuHnrStage env (place.address.getD [])
                  ⟨(icuNamesPart env place).1, st, (icuNamesPart env place).2⟩)))) := by
  unfold tokenize
  rw [if_pos htr]

/-- Convenience constructor for places in theorem statements. -/
def mkPlace (nm : Option (List (String × String)))
    (addr : Option (List (String × String))) (cf : Option String) : Place :=
  { name := nm, address := addr, country_feature := cf }

theorem hn_key_mem (f : Nat → String) (n : Nat) (h1 : 1 ≤ n) (h2 : n ≤ 100) :
    toString n ∈ ((List.range' 1 100).map (fun i => (toString i, f i))).map Prod.fst := by
  rw [List.map_map]
  exact List.mem_map.mpr ⟨n, List.mem_range'_1.mpr ⟨h1, by omega⟩, rfl⟩

theorem hn_key_mem_icu (f : Nat → String) (n : Nat) (h1 : 1 ≤ n) (h2 : n ≤ 100) :
    [toString n] ∈ ((List.range' 1 100).map (fun i => ([toString i], f i))).map Prod.fst := by
  rw [List.map_map]
  exact List.mem_map.mpr ⟨n, List.mem_range'_1.mpr ⟨h1, by omega⟩, rfl⟩

theorem legacy_hnr_cache_hit (envL : LegacyEnv) (pseed : List String)
    (nm : Option (List (String × String))) (cf : Option String)
    (address : List (String × String)) (n : Nat)
    (h1 : 1 ≤ n) (h2 : n ≤ 100)
    (hhnr : (address.filter (fun kv => isHnrKey kv.1)).map Prod.snd = [toString n]) :
    DbCall.createHousenumbers ∉
        (process_place envL (tokenCacheInit envL pseed)
          (mkPlace nm (some address) cf)).2.2
    ∧ (∃ v, odGet (tokenCacheInit envL pseed).cached_housenumbers (toString n) = some v
        ∧ odGet (process_place envL (tokenCacheInit envL pseed)
            (mkPlace nm (some address) cf)).1
            "hnr_tokens" = some (.str v)) := by
  have haddr : address ≠ [] := by
    intro he
    rw [he] at hhnr
    simp at hhnr
  have htr : truthy (mkPlace nm (some address) cf).address = true := by
    cases address with
    | nil => exact absurd rfl haddr
    | cons x xs => rfl
  have heq := process_place_addr envL (tokenCacheInit envL pseed)
    (mkPlace nm (some address) cf) htr
  have hgetd : (mkPlace nm (some address) cf).address.getD [] = address := rfl
  rw [hgetd] at heq
  obtain ⟨hf1, hf2, ⟨fex, hfex, hfex'⟩, hf4⟩ := legacy_fold_char envL address
    (legacyBase envL (tokenCacheInit envL pseed)
      (mkPlace nm (some address) cf))
  have hA_hnrs : (address.foldl (legacyAddressStep envL)
      (legacyBase envL (tokenCacheInit envL pseed)
        (mkPlace nm (some address) cf))).hnrs
      = [toString n] := by
    rw [hf1, legacyBase_hnrs, List.nil_append, hhnr]
  have hA_hn : (address.foldl (legacyAddressStep envL)
      (legacyBase envL (tokenCacheInit envL pseed)
        (mkPlace nm (some address) cf))).cache.cached_housenumbers
      = (tokenCacheInit envL pseed).cached_housenumbers := by
    rw [hf2, legacyBase_cache]
  obtain ⟨v, hv⟩ := odGet_isSome_of_key_mem
    (tokenCacheInit envL pseed).cached_housenumbers (toString n)
    (hn_key_mem envL.housenumber_token n h1 h2)
  have hv' : odGet (address.foldl (legacyAddressStep envL)
      (legacyBase envL (tokenCacheInit envL pseed)
        (mkPlace nm (some address) cf))).cache.cached_housenumbers
      (toString n) = some v := by
    rw [hA_hn]
    exact hv
  have hHnr := legacyHnrFinish_hit envL _ (toString n) v hA_hnrs hv'
  obtain ⟨aex, haex, haex'⟩ := legacyAddrFinish_calls envL
    (legacyHnrFinish envL (address.foldl (legacyAddressStep envL)
      (legacyBase envL (tokenCacheInit envL pseed)
        (mkPlace nm (some address) cf))))
  constructor
  · rw [heq]
    simp only
    rw [haex, hHnr]
    simp only
    intro hmem
    rcases List.mem_append.mp hmem with h | h
    · rw [hfex] at h
      rcases List.mem_append.mp h with h' | h'
      · rcases legacyBase_calls envL (tokenCacheInit envL pseed) _ _ h' with h'' | ⟨cc, ns, h''⟩
        · simp at h''
        · simp at h''
      · rcases hfex' _ h' with h'' | h'' | ⟨p, h''⟩ <;> simp at h''
    · have := haex' _ h
      simp at this
  · refine ⟨v, hv, ?_⟩
    rw [heq]
    simp only
    rw [legacyAddrFinish_get envL _ _ (by decide), hHnr]
    simp only
    rw [odGet_odSet_ne _ _ _ _ (by decide : ("hnr" : String) ≠ "hnr_tokens")]
    exact odGet_odSet_self _ _ _

theorem icu_pipeline_calls (env : IcuEnv) (address : List (String × String))
    (r : IcuRes) :
    ∃ extra, (icuAddrStage env address (icuStreetPlaceStage env address "place"
        (icuStreetPlaceStage env address "street"
          (icuPostcodeStage address r)))).calls = r.calls ++ extra
      ∧ ∀ c ∈ extra, c = DbCall.streetPlaceTerms ∨ c = DbCall.addrTerms
          ∨ ∃ p, c = DbCall.createPostcode p := by
  obtain ⟨e1, h1, h1'⟩ := icuPostcodeStage_calls address r
  obtain ⟨e2, h2, h2'⟩ := icuStreetPlaceStage_calls env address "street"
    (icuPostcodeStage address r)
  obtain ⟨e3, h3, h3'⟩ := icuStreetPlaceStage_calls env address "place"
    (icuStreetPlaceStage env address "street" (icuPostcodeStage address r))
  obtain ⟨e4, h4, h4'⟩ := icuAddrStage_calls env address
    (icuStreetPlaceStage env address "place"
      (icuStreetPlaceStage env address "street" (icuPostcodeStage address r)))
  refine ⟨e1 ++ e2 ++ e3 ++ e4, ?_, ?_⟩
  · rw [h4, h3, h2, h1]
    simp [List.append_assoc]
  · intro c hc
    rcases List.mem_append.mp hc with h | h
    · rcases List.mem_append.mp h with h' | h'
      · rcases List.mem_append.mp h' with h'' | h''
        · exact Or.inr (Or.inr (h1' c h''))
        · exact Or.inl (h2' c h'')
      · exact Or.inl (h3' c h')
    · exact Or.inr (Or.inl (h4' c h))

theorem icu_pipeline_get (env : IcuEnv) (address : List (String × String))
    (r : IcuRes) (k : String)
    (h1 : "addr" ≠ k)
    (h2 : "place" ++ "_match" ≠ k) (h3 : "place" ++ "_search" ≠ k)
    (h4 : "street" ++ "_match" ≠ k) (h5 : "street" ++ "_search" ≠ k) :
    odGet (icuAddrStage env address (icuStreetPlaceStage env address "place"
        (icuStreetPlaceStage env address "street"
          (icuPostcodeStage address r)))).token_info k
      = odGet r.token_info k := by
  rw [icuAddrStage_get env address _ k h1,
      icuStreetPlaceStage_get env address "place" _ k h2 h3,
      icuStreetPlaceStage_get env address "street" _ k h4 h5,
      icuPostcodeStage_token_info address r]

theorem icu_hnr_cache_hit (envI : IcuEnv)
    (nm : Option (List (String × String))) (cf : Option String)
    (address : List (String × String)) (n : Nat)
    (h1 : 1 ≤ n) (h2 : n ≤ 100)
    (hhnr : (address.filter (fun kv => isHnrKey kv.1)).map Prod.snd = [toString n]) :
    DbCall.createHousenumbers ∉
        (tokenize envI (icuStateInit envI)
          (mkPlace nm (some address) cf)).calls
    ∧ (∃ v, odGet (icuStateInit envI).cached_housenumbers [toString n] = some v
        ∧ odGet (tokenize envI (icuStateInit envI)
            (mkPlace nm (some address) cf)).token_info
            "hnr_search" = some (.str v)) := by
  have haddr : address ≠ [] := by
    intro he
    rw [he] at hhnr
    simp at hhnr
  have htr : truthy (mkPlace nm (some address) cf).address = true := by
    cases address with
    | nil => exact absurd rfl haddr
    | cons x xs => rfl
  have heq := tokenize_addr envI (icuStateInit envI)
    (mkPlace nm (some address) cf) htr
  have hgetd : (mkPlace nm (some address) cf).address.getD [] = address := rfl
  rw [hgetd] at heq
  obtain ⟨v, hv⟩ := odGet_isSome_of_key_mem
    (icuStateInit envI).cached_housenumbers [toString n]
    (hn_key_mem_icu envI.housenumber_seed n h1 h2)
  have hHnr := icuHnrStage_hit envI address
    ⟨(icuNamesPart envI (mkPlace nm (some address) cf)).1,
      icuStateInit envI,
      (icuNamesPart envI (mkPlace nm (some address) cf)).2⟩
    (toString n) v hhnr hv
  constructor
  · rw [heq]
    obtain ⟨extra, hext, hext'⟩ := icu_pipeline_calls envI address
      (icuHnrStage envI address
        ⟨(icuNamesPart envI (mkPlace nm (some address) cf)).1,
          icuStateInit envI,
          (icuNamesPart envI (mkPlace nm (some address) cf)).2⟩)
    rw [hext, hHnr]
    simp only
    intro hmem
    rcases List.mem_append.mp hmem with h | h
    · rcases icuNamesPart_calls envI _ _ h with h' | ⟨cc, ns, h'⟩ <;> simp at h'
    · rcases hext' _ h with h' | h' | ⟨p, h'⟩ <;> simp at h'
  · refine ⟨v, hv, ?_⟩
    rw [heq]
    rw [icu_pipeline_get envI address _ "hnr_search" (by decide) (by decide)
      (by decide) (by decide) (by decide)]
    rw [hHnr]
    simp only
    rw [odGet_odSet_ne _ _ _ _ (by decide : ("hnr_match" : String) ≠ "hnr_search")]
    exact odGet_odSet_self _ _ _

/-- Claim C7 (confirmed): for a place whose address carries exactly one
housenumber-like value (keys `housenumber`/`streetnumber`/
`conscriptionnumber`) that is the decimal numeral of some `n` with
`1 ≤ n ≤ 100`, both analyzers answer the housenumber tokens from the
precomputed cache built at analyzer construction and issue no
`create_housenumbers` database query while tokenizing. -/
theorem claim_C7 (envL : LegacyEnv) (envI : IcuEnv) (pseed : List String)
    (nm : Option (List (String × String))) (cf : Option String)
    (address : List (String × String)) (n : Nat)
    (h1 : 1 ≤ n) (h2 : n ≤ 100)
    (hhnr : (address.filter (fun kv => isHnrKey kv.1)).map Prod.snd = [toString n]) :
    (DbCall.createHousenumbers ∉
        (process_place envL (tokenCacheInit envL pseed)
          (mkPlace nm (some address) cf)).2.2
      ∧ ∃ v, odGet (tokenCacheInit envL pseed).cached_housenumbers (toString n) = some v
          ∧ odGet (process_place envL (tokenCacheInit envL pseed)
              (mkPlace nm (some address) cf)).1
              "hnr_tokens" = some (.str v))
    ∧ (DbCall.createHousenumbers ∉
        (tokenize envI (icuStateInit envI)
          (mkPlace nm (some address) cf)).calls
      ∧ ∃ v, odGet (icuStateInit envI).cached_housenumbers [toString n] = some v
          ∧ odGet (tokenize envI (icuStateInit envI)
              (mkPlace nm (some address) cf)).token_info
              "hnr_search" = some (.str v)) :=
  ⟨legacy_hnr_cache_hit envL pseed nm cf address n h1 h2 hhnr,
   icu_hnr_cache_hit envI nm cf address n h1 h2 hhnr⟩

/-! #### Malformed-data lemmas (claim C9) -/

theorem odGet_filter_key {α : Type} (l : List (String × α)) (k : String)
    (hk : k ≠ "postcode") :
    odGet (l.filter (fun kv => kv.1 != "postcode")) k = odGet l k := by
  induction l with
  | nil => rfl
  | cons kv rest ih =>
      obtain ⟨k0, w⟩ := kv
      by_cases h0 : k0 = "postcode"
      · subst h0
        have : ("postcode" : String) ≠ k := Ne.symm hk
        simp only [List.filter_cons]
        simp only [bne_self_eq_false, Bool.false_eq_true, if_false]
        rw [ih]
        simp [odGet, this]
      · simp only [List.filter_cons]
        have : (k0 != "postcode") = true := by simpa using h0
        rw [this]
        simp only [if_true]
        by_cases h1 : k0 = k
        · subst h1; simp [odGet]
        · simp [odGet, h1, ih]

theorem odGet_filter_postcode {α : Type} (l : List (String × α)) :
    odGet (l.filter (fun kv => kv.1 != "postcode")) "postcode" = none := by
  induction l with
  | nil => rfl
  | cons kv rest ih =>
      obtain ⟨k0, w⟩ := kv
      by_cases h0 : k0 = "postcode"
      · subst h0
        simpa [List.filter_cons] using ih
      · have : (k0 != "postcode") = true := by simpa using h0
        simp only [List.filter_cons, this, if_true]
        simp [odGet, h0, ih]

theorem filter_drop_postcode (q : String × String → Bool)
    (hq : ∀ v, q ("postcode", v) = false) (l : List (String × String)) :
    (l.filter (fun kv => kv.1 != "postcode")).filter q = l.filter q := by
  induction l with
  | nil => rfl
  | cons kv rest ih =>
      obtain ⟨k0, w⟩ := kv
      by_cases h0 : k0 = "postcode"
      · subst h0
        simp only [List.filter_cons, bne_self_eq_false, Bool.false_eq_true, if_false,
          hq w]
        exact ih
      · have : (k0 != "postcode") = true := by simpa using h0
        simp only [List.filter_cons, this, if_true]
        by_cases h1 : q (k0, w) = true
        · simp only [List.filter_cons, h1, if_true, ih]
        · have h1' : q (k0, w) = false := by simpa using h1
          simp only [List.filter_cons, h1', Bool.false_eq_true, if_false, ih]

theorem get_housenumber_ids_calls (env : IcuEnv) (st : IcuState)
    (hnrs : List String) :
    ∀ c ∈ (get_housenumber_ids env st hnrs).2, c = DbCall.createHousenumbers := by
  intro c hc
  unfold get_housenumber_ids at hc
  split at hc
  · simp at hc
  · exact List.mem_singleton.mp hc

theorem icuHnrStage_calls (env : IcuEnv) (address : List (String × String))
    (r : IcuRes) :
    ∃ extra, (icuHnrStage env address r).calls = r.calls ++ extra
      ∧ ∀ c ∈ extra, c = DbCall.createHousenumbers := by
  simp only [icuHnrStage]
  split
  · exact ⟨_, rfl, get_housenumber_ids_calls env r.st _⟩
  · exact ⟨[], by simp, by simp⟩

theorem icuHnrStage_congr (env : IcuEnv) (a1 a2 : List (String × String))
    (r : IcuRes)
    (h : a1.filter (fun kv => isHnrKey kv.1) = a2.filter (fun kv => isHnrKey kv.1)) :
    icuHnrStage env a1 r = icuHnrStage env a2 r := by
  unfold icuHnrStage
  rw [h]

theorem icuPostcodeStage_skip (address : List (String × String)) (r : IcuRes)
    (h : normalize_postcode (odGet address "postcode") = none) :
    icuPostcodeStage address r = r := by
  unfold icuPostcodeStage
  rw [h]

theorem icuStreetPlaceStage_congr (env : IcuEnv) (a1 a2 : List (String × String))
    (atype : String) (r : IcuRes) (h : odGet a1 atype = odGet a2 atype) :
    icuStreetPlaceStage env a1 atype r = icuStreetPlaceStage env a2 atype r := by
  unfold icuStreetPlaceStage
  rw [h]

theorem icuAddrStage_congr (env : IcuEnv) (a1 a2 : List (String × String))
    (r : IcuRes)
    (h : a1.filter (fun kv => ! icuReservedKey kv.1)
       = a2.filter (fun kv => ! icuReservedKey kv.1)) :
    icuAddrStage env a1 r = icuAddrStage env a2 r := by
  unfold icuAddrStage
  rw [h]

theorem icuNamesPart_addr_congr (env : IcuEnv) (nm : Option (List (String × String)))
    (a1 a2 : Option (List (String × String))) (cf : Option String) :
    icuNamesPart env (mkPlace nm a1 cf) = icuNamesPart env (mkPlace nm a2 cf) :=
  rfl

theorem icuNamesPart_cf_congr (env : IcuEnv) (nm : Option (List (String × String)))
    (a : Option (List (String × String))) (cf : String)
    (hcf : isAsciiAlpha2 cf = false) :
    icuNamesPart env (mkPlace nm a (some cf)) = icuNamesPart env (mkPlace nm a none) := by
  unfold icuNamesPart mkPlace
  simp [hcf]

theorem icuNamesPart_calls_none (env : IcuEnv)
    (nm : Option (List (String × String))) (a : Option (List (String × String))) :
    ∀ c ∈ (icuNamesPart env (mkPlace nm a none)).2, c = DbCall.nameTokens := by
  intro c hc
  unfold icuNamesPart mkPlace at hc
  split at hc
  · simp only [List.append_nil] at hc
    exact List.mem_singleton.mp hc
  · simp at hc

theorem tokenize_cf_congr (env : IcuEnv) (st : IcuState)
    (nm : Option (List (String × String))) (a : Option (List (String × String)))
    (cf : String) (hcf : isAsciiAlpha2 cf = false) :
    tokenize env st (mkPlace nm a (some cf)) = tokenize env st (mkPlace nm a none) := by
  have hnp := icuNamesPart_cf_congr env nm a cf hcf
  unfold tokenize
  rw [hnp]
  rfl

theorem icu_pipeline_calls_skip (env : IcuEnv) (address : List (String × String))
    (r : IcuRes) (hskip : normalize_postcode (odGet address "postcode") = none) :
    ∃ extra, (icuAddrStage env address (icuStreetPlaceStage env address "place"
        (icuStreetPlaceStage env address "street"
          (icuPostcodeStage address r)))).calls = r.calls ++ extra
      ∧ ∀ c ∈ extra, c = DbCall.streetPlaceTerms ∨ c = DbCall.addrTerms := by
  rw [icuPostcodeStage_skip address r hskip]
  obtain ⟨e2, h2, h2'⟩ := icuStreetPlaceStage_calls env address "street" r
  obtain ⟨e3, h3, h3'⟩ := icuStreetPlaceStage_calls env address "place"
    (icuStreetPlaceStage env address "street" r)
  obtain ⟨e4, h4, h4'⟩ := icuAddrStage_calls env address
    (icuStreetPlaceStage env address "place" (icuStreetPlaceStage env address "street" r))
  refine ⟨e2 ++ e3 ++ e4, ?_, ?_⟩
  · rw [h4, h3, h2]
    simp [List.append_assoc]
  · intro c hc
    rcases List.mem_append.mp hc with h | h
    · rcases List.mem_append.mp h with h' | h'
      · exact Or.inl (h2' c h')
      · exact Or.inl (h3' c h')
    · exact Or.inr (h4' c h)

/-! #### Legacy-analyzer lemmas about malformed postcodes and country
features (claim C9) -/

theorem add_postcode_skip (cache : TokenCache) (pc : String)
    (hbad : pc.data.any (fun c => c == ':' || c == ',' || c == ';') = true) :
    add_postcode cache pc = (cache, []) := by
  unfold add_postcode
  rw [if_pos hbad]

theorem legacyAddressStep_postcode_skip (env : LegacyEnv) (acc : LegacyAcc)
    (v : String)
    (hv : v.data.any (fun c => c == ':' || c == ',' || c == ';') = true) :
    legacyAddressStep env acc ("postcode", v) = acc := by
  unfold legacyAddressStep
  rw [if_pos rfl, add_postcode_skip acc.cache v hv]
  simp

theorem legacyAddressStep_calls_nopc (env : LegacyEnv) (acc : LegacyAcc)
    (kv : String × String)
    (hkv : kv.1 = "postcode" →
      kv.2.data.any (fun c => c == ':' || c == ',' || c == ';') = true) :
    ∃ extra, (legacyAddressStep env acc kv).calls = acc.calls ++ extra
      ∧ ∀ c ∈ extra, c = DbCall.streetTerms ∨ c = DbCall.placeTerms := by
  obtain ⟨key, v⟩ := kv
  by_cases h1 : key = "postcode"
  · subst h1
    rw [legacyAddressStep_postcode_skip env acc v (hkv rfl)]
    exact ⟨[], by simp, by simp⟩
  · unfold legacyAddressStep
    rw [if_neg h1]
    by_cases h2 : key = "housenumber" ∨ key = "streetnumber"
        ∨ key = "conscriptionnumber"
    · rw [if_pos h2]
      exact ⟨[], by simp, by simp⟩
    · rw [if_neg h2]
      by_cases h3 : key = "street"
      · subst h3
        rw [if_pos rfl]
        exact ⟨(add_street env acc.cache acc.data v).2.2, rfl,
          fun c hc => Or.inl (add_street_calls env acc.cache acc.data v c hc)⟩
      · rw [if_neg h3]
        by_cases h4 : key = "place"
        · subst h4
          rw [if_pos rfl]
          exact ⟨(add_place env acc.cache acc.data v).2.2, rfl,
            fun c hc => Or.inr (add_place_calls env acc.cache acc.data v c hc)⟩
        · rw [if_neg h4]
          split
          · exact ⟨[], by simp, by simp⟩
          · exact ⟨[], by simp, by simp⟩

theorem legacy_fold_calls_nopc (env : LegacyEnv) (address : List (String × String))
    (base : LegacyAcc)
    (hpcs : ∀ kv ∈ address, kv.1 = "postcode" →
      kv.2.data.any (fun c => c == ':' || c == ',' || c == ';') = true) :
    ∃ extra, (address.foldl (legacyAddressStep env) base).calls = base.calls ++ extra
      ∧ ∀ c ∈ extra, c = DbCall.streetTerms ∨ c = DbCall.placeTerms := by
  induction address generalizing base with
  | nil => exact ⟨[], by simp, by simp⟩
  | cons kv rest ih =>
      obtain ⟨e1, he1, he1'⟩ := legacyAddressStep_calls_nopc env base kv
        (fun h => hpcs kv (List.mem_cons_self kv rest) h)
      obtain ⟨e2, he2, he2'⟩ := ih (legacyAddressStep env base kv)
        (fun kv' hkv' h => hpcs kv' (List.mem_cons_of_mem _ hkv') h)
      refine ⟨e1 ++ e2, ?_, ?_⟩
      · simp only [List.foldl_cons, he2, he1, List.append_assoc]
      · intro c hc
        rcases List.mem_append.mp hc with h | h
        · exact he1' c h
        · exact he2' c h

theorem legacyHnrFinish_calls (env : LegacyEnv) (acc : LegacyAcc) :
    ∃ extra, (legacyHnrFinish env acc).calls = acc.calls ++ extra
      ∧ ∀ c ∈ extra, c = DbCall.createHousenumbers := by
  simp only [legacyHnrFinish]
  split
  · refine ⟨(add_housenumbers env acc.cache acc.data acc.hnrs).2, rfl, ?_⟩
    intro c hc
    simp only [add_housenumbers] at hc
    split at hc
    · simp at hc
    · exact List.mem_singleton.mp hc
  · exact ⟨[], by simp, by simp⟩

theorem legacyBase_calls_nocf (env : LegacyEnv) (cache : TokenCache)
    (nm a : Option (List (String × String))) :
    ∀ c ∈ (legacyBase env cache (mkPlace nm a none)).calls,
      c = DbCall.makeKeywords := by
  intro c hc
  simp only [legacyBase, mkPlace] at hc
  split at hc
  · simpa using hc
  · simp at hc

theorem legacyBase_cf_congr (env : LegacyEnv) (cache : TokenCache)
    (nm a : Option (List (String × String))) (cf : String)
    (hcf : isAsciiAlpha2 cf = false) :
    legacyBase env cache (mkPlace nm a (some cf))
      = legacyBase env cache (mkPlace nm a none) := by
  simp [legacyBase, mkPlace, hcf]

theorem legacy_fold_drop_postcode (env : LegacyEnv)
    (address : List (String × String)) (base : LegacyAcc)
    (hpcs : ∀ kv ∈ address, kv.1 = "postcode" →
      kv.2.data.any (fun c => c == ':' || c == ',' || c == ';') = true) :
    (address.filter (fun kv => kv.1 != "postcode")).foldl
        (legacyAddressStep env) base
      = address.foldl (legacyAddressStep env) base := by
  induction address generalizing base with
  | nil => rfl
  | cons kv rest ih =>
      obtain ⟨key, v⟩ := kv
      by_cases h : key = "postcode"
      · subst h
        have hstep : legacyAddressStep env base ("postcode", v) = base :=
          legacyAddressStep_postcode_skip env base v
            (hpcs ("postcode", v) (List.mem_cons_self _ _) rfl)
        rw [List.filter_cons, List.foldl_cons, hstep]
        rw [if_neg (by simp)]
        exact ih base (fun kv' hkv' h' => hpcs kv' (List.mem_cons_of_mem _ hkv') h')
      · rw [List.filter_cons]
        rw [if_pos (by simp [h])]
        rw [List.foldl_cons, List.foldl_cons]
        exact ih (legacyAddressStep env base (key, v))
          (fun kv' hkv' h' => hpcs kv' (List.mem_cons_of_mem _ hkv') h')

/-- Claim C9 (confirmed): tokenizing a place with a malformed
`country_feature` (not two ASCII letters) and a malformed postcode
(containing `:`/`,`/`;`) raises no error in either analyzer — both
registrations are silently skipped (no `create_country`/
`create_postcode_id` call is issued), the result is identical to
tokenizing the place without its `country_feature`, and the `token_info`
is identical to that of the place with the postcode entries removed (for
the ICU analyzer, when some address entry remains; for the legacy
analyzer, whose address entries under `postcode` all carry the malformed
value, even the caches and call lists coincide). -/
theorem claim_C9 (envI : IcuEnv) (st : IcuState)
    (envL : LegacyEnv) (cache : TokenCache)
    (nm : Option (List (String × String))) (address : List (String × String))
    (cf pc : String)
    (hcf : isAsciiAlpha2 cf = false)
    (hpc : odGet address "postcode" = some pc)
    (hbad : pc.data.any (fun c => c == ':' || c == ',' || c == ';') = true) :
    (∀ cc ns, DbCall.countryNames cc ns ∉
        (tokenize envI st (mkPlace nm (some address) (some cf))).calls)
    ∧ (∀ p, DbCall.createPostcode p ∉
        (tokenize envI st (mkPlace nm (some address) (some cf))).calls)
    ∧ tokenize envI st (mkPlace nm (some address) (some cf))
        = tokenize envI st (mkPlace nm (some address) none)
    ∧ (address.filter (fun kv => kv.1 != "postcode") ≠ [] →
        tokenize envI st (mkPlace nm (some address) (some cf))
          = tokenize envI st
              (mkPlace nm (some (address.filter (fun kv => kv.1 != "postcode")))
                (some cf)))
    ∧ ((∀ kv ∈ address, kv.1 = "postcode" → kv.2 = pc) →
        (∀ cc ns, DbCall.countryNames cc ns ∉
            (process_place envL cache (mkPlace nm (some address) (some cf))).2.2)
        ∧ (∀ p, DbCall.createPostcode p ∉
            (process_place envL cache (mkPlace nm (some address) (some cf))).2.2)
        ∧ process_place envL cache (mkPlace nm (some address) (some cf))
            = process_place envL cache (mkPlace nm (some address) none)
        ∧ (address.filter (fun kv => kv.1 != "postcode") ≠ [] →
            process_place envL cache (mkPlace nm (some address) (some cf))
              = process_place envL cache
                  (mkPlace nm
                    (some (address.filter (fun kv => kv.1 != "postcode")))
                    (some cf)))) := by
  have haddr : address ≠ [] := by
    intro he
    rw [he] at hpc
    simp [odGet] at hpc
  have htr : truthy ((mkPlace nm (some address) none).address) = true := by
    cases address with
    | nil => exact absurd rfl haddr
    | cons x xs => rfl
  have hskip : normalize_postcode (odGet address "postcode") = none := by
    rw [hpc]
    simp [normalize_postcode, hbad]
  have hcfeq := tokenize_cf_congr envI st nm (some address) cf hcf
  have heq := tokenize_addr envI st (mkPlace nm (some address) none) htr
  have hgetd : ((mkPlace nm (some address) none).address).getD [] = address := rfl
  rw [hgetd] at heq
  obtain ⟨pex, hpex, hpex'⟩ := icu_pipeline_calls_skip envI address
    (icuHnrStage envI address
      ⟨(icuNamesPart envI (mkPlace nm (some address) none)).1, st,
       (icuNamesPart envI (mkPlace nm (some address) none)).2⟩) hskip
  obtain ⟨hex, hhex, hhex'⟩ := icuHnrStage_calls envI address
    ⟨(icuNamesPart envI (mkPlace nm (some address) none)).1, st,
     (icuNamesPart envI (mkPlace nm (some address) none)).2⟩
  have hcallmem : ∀ c ∈ (tokenize envI st (mkPlace nm (some address) (some cf))).calls,
      c = DbCall.nameTokens ∨ c = DbCall.createHousenumbers
        ∨ c = DbCall.streetPlaceTerms ∨ c = DbCall.addrTerms := by
    intro c hc
    rw [hcfeq, heq] at hc
    rw [hpex, hhex] at hc
    simp only at hc
    rcases List.mem_append.mp hc with h | h
    · rcases List.mem_append.mp h with h' | h'
      · exact Or.inl (icuNamesPart_calls_none envI nm (some address) c h')
      · exact Or.inr (Or.inl (hhex' c h'))
    · rcases hpex' c h with h' | h'
      · exact Or.inr (Or.inr (Or.inl h'))
      · exact Or.inr (Or.inr (Or.inr h'))
  refine ⟨?_, ?_, hcfeq, ?_, ?_⟩
  · intro cc ns hmem
    rcases hcallmem _ hmem with h | h | h | h <;> simp at h
  · intro p hmem
    rcases hcallmem _ hmem with h | h | h | h <;> simp at h
  · intro hfil
    have htr2 : truthy ((mkPlace nm
        (some (address.filter (fun kv => kv.1 != "postcode"))) (some cf)).address)
        = true := by
      cases hfe : address.filter (fun kv => kv.1 != "postcode") with
      | nil => exact absurd hfe hfil
      | cons x xs => rfl
    have htr1 : truthy ((mkPlace nm (some address) (some cf)).address) = true := by
      cases address with
      | nil => exact absurd rfl haddr
      | cons x xs => rfl
    have heq1 := tokenize_addr envI st (mkPlace nm (some address) (some cf)) htr1
    have heq2 := tokenize_addr envI st
      (mkPlace nm (some (address.filter (fun kv => kv.1 != "postcode"))) (some cf)) htr2
    have hgetd1 : ((mkPlace nm (some address) (some cf)).address).getD [] = address := rfl
    have hgetd2 : ((mkPlace nm
        (some (address.filter (fun kv => kv.1 != "postcode"))) (some cf)).address).getD []
        = address.filter (fun kv => kv.1 != "postcode") := rfl
    rw [hgetd1] at heq1
    rw [hgetd2] at heq2
    rw [heq1, heq2]
    rw [icuNamesPart_addr_congr envI nm
      (some (address.filter (fun kv => kv.1 != "postcode"))) (some address) (some cf)]
    rw [icuHnrStage_congr envI (address.filter (fun kv => kv.1 != "postcode")) address
      _ (filter_drop_postcode _
          (fun v => by show isHnrKey "postcode" = false; decide) address)]
    have hskip2 : normalize_postcode
        (odGet (address.filter (fun kv => kv.1 != "postcode")) "postcode") = none := by
      rw [odGet_filter_postcode]
      rfl
    rw [icuPostcodeStage_skip _ _ hskip, icuPostcodeStage_skip _ _ hskip2]
    rw [icuStreetPlaceStage_congr envI (address.filter (fun kv => kv.1 != "postcode"))
      address "street" _ (odGet_filter_key address "street" (by decide))]
    rw [icuStreetPlaceStage_congr envI (address.filter (fun kv => kv.1 != "postcode"))
      address "place" _ (odGet_filter_key address "place" (by decide))]
    rw [icuAddrStage_congr envI (address.filter (fun kv => kv.1 != "postcode")) address
      _ (filter_drop_postcode _
          (fun v => by show (! icuReservedKey "postcode") = false; decide) address)]
  · intro hall
    have hpcs : ∀ kv ∈ address, kv.1 = "postcode" →
        kv.2.data.any (fun c => c == ':' || c == ',' || c == ';') = true := by
      intro kv hm hk
      rw [hall kv hm hk]
      exact hbad
    have htrL : truthy ((mkPlace nm (some address) (some cf)).address) = true := by
      cases address with
      | nil => exact absurd rfl haddr
      | cons x xs => rfl
    have htrLn : truthy ((mkPlace nm (some address) none).address) = true := htrL
    have hbase := legacyBase_cf_congr envL cache nm (some address) cf hcf
    have hgL : ((mkPlace nm (some address) (some cf)).address).getD [] = address := rfl
    have hcallsL : ∀ c ∈
        (process_place envL cache (mkPlace nm (some address) (some cf))).2.2,
        c = DbCall.makeKeywords ∨ c = DbCall.streetTerms ∨ c = DbCall.placeTerms
          ∨ c = DbCall.createHousenumbers ∨ c = DbCall.addrTerms := by
      intro c hc
      rw [process_place_addr envL cache _ htrL] at hc
      simp only at hc
      rw [hgL] at hc
      obtain ⟨eA, heA, heA'⟩ := legacyAddrFinish_calls envL
        (legacyHnrFinish envL (address.foldl (legacyAddressStep envL)
          (legacyBase envL cache (mkPlace nm (some address) (some cf)))))
      obtain ⟨eH, heH, heH'⟩ := legacyHnrFinish_calls envL
        (address.foldl (legacyAddressStep envL)
          (legacyBase envL cache (mkPlace nm (some address) (some cf))))
      obtain ⟨eF, heF, heF'⟩ := legacy_fold_calls_nopc envL address
        (legacyBase envL cache (mkPlace nm (some address) (some cf))) hpcs
      rw [heA, heH, heF] at hc
      rcases List.mem_append.mp hc with h | h
      · rcases List.mem_append.mp h with h' | h'
        · rcases List.mem_append.mp h' with h'' | h''
          · rw [hbase] at h''
            exact Or.inl (legacyBase_calls_nocf envL cache nm (some address) c h'')
          · rcases heF' c h'' with h3 | h3
            · exact Or.inr (Or.inl h3)
            · exact Or.inr (Or.inr (Or.inl h3))
        · exact Or.inr (Or.inr (Or.inr (Or.inl (heH' c h'))))
      · exact Or.inr (Or.inr (Or.inr (Or.inr (heA' c h))))
    refine ⟨?_, ?_, ?_, ?_⟩
    · intro cc ns hmem
      rcases hcallsL _ hmem with h | h | h | h | h <;> simp at h
    · intro p hmem
      rcases hcallsL _ hmem with h | h | h | h | h <;> simp at h
    · have hgLn : ((mkPlace nm (some address) none).address).getD [] = address := rfl
      rw [process_place_addr envL cache _ htrL,
        process_place_addr envL cache _ htrLn, hbase, hgL, hgLn]
    · intro hfil
      have htrF : truthy ((mkPlace nm
          (some (address.filter (fun kv => kv.1 != "postcode")))
          (some cf)).address) = true := by
        cases hfe : address.filter (fun kv => kv.1 != "postcode") with
        | nil => exact absurd hfe hfil
        | cons x xs => rfl
      rw [process_place_addr envL cache _ htrL,
        process_place_addr envL cache _ htrF]
      rw [show ((mkPlace nm
            (some (address.filter (fun kv => kv.1 != "postcode")))
            (some cf)).address).getD []
          = address.filter (fun kv => kv.1 != "postcode") from rfl]
      rw [hgL]
      rw [show legacyBase envL cache (mkPlace nm
            (some (address.filter (fun kv => kv.1 != "postcode"))) (some cf))
          = legacyBase envL cache (mkPlace nm (some address) (some cf)) from rfl]
      rw [legacy_fold_drop_postcode envL address
        (legacyBase envL cache (mkPlace nm (some address) (some cf))) hpcs]

/-- ICU environment used by the closed test theorems. -/
def icuTestEnv : IcuEnv :=
  { trans := fun s => s
    abbreviations := []
    name_tokens := fun _ _ => "ntok"
    addr_ids_from_name := fun _ => "aids"
    word_ids_from_name := fun _ => "wids"
    name_id_array := fun _ => "narr"
    housenumber_array := fun _ => "harr"
    housenumber_seed := fun i => toString i }

theorem claim_C7_witness :
    (1 ≤ 7 ∧ 7 ≤ 100
      ∧ (([("housenumber", "7")] : List (String × String)).filter
          (fun kv => isHnrKey kv.1)).map Prod.snd = [toString 7])
    ∧ ((DbCall.createHousenumbers ∉
          (process_place legacyTestEnv (tokenCacheInit legacyTestEnv [])
            (mkPlace none (some [("housenumber", "7")]) none)).2.2
        ∧ ∃ v, odGet (tokenCacheInit legacyTestEnv []).cached_housenumbers
              (toString 7) = some v
            ∧ odGet (process_place legacyTestEnv (tokenCacheInit legacyTestEnv [])
                (mkPlace none (some [("housenumber", "7")]) none)).1 "hnr_tokens"
              = some (.str v))
      ∧ (DbCall.createHousenumbers ∉
          (tokenize icuTestEnv (icuStateInit icuTestEnv)
            (mkPlace none (some [("housenumber", "7")]) none)).calls
        ∧ ∃ v, odGet (icuStateInit icuTestEnv).cached_housenumbers
              [toString 7] = some v
            ∧ odGet (tokenize icuTestEnv (icuStateInit icuTestEnv)
                (mkPlace none (some [("housenumber", "7")]) none)).token_info
                "hnr_search" = some (.str v))) :=
  ⟨⟨by decide, by decide, by decide⟩,
   claim_C7 legacyTestEnv icuTestEnv [] none none [("housenumber", "7")] 7
     (by decide) (by decide) (by decide)⟩

theorem claim_C9_witness :
    (isAsciiAlpha2 "Germany!" = false
      ∧ odGet [("postcode", "1:2"), ("street", "Main")] "postcode" = some "1:2"
      ∧ ("1:2".data.any (fun c => c == ':' || c == ',' || c == ';') = true))
    ∧ ((∀ cc ns, DbCall.countryNames cc ns ∉
          (tokenize icuTestEnv (icuStateInit icuTestEnv)
            (mkPlace none (some [("postcode", "1:2"), ("street", "Main")])
              (some "Germany!"))).calls)
      ∧ (∀ p, DbCall.createPostcode p ∉
          (tokenize icuTestEnv (icuStateInit icuTestEnv)
            (mkPlace none (some [("postcode", "1:2"), ("street", "Main")])
              (some "Germany!"))).calls)
      ∧ tokenize icuTestEnv (icuStateInit icuTestEnv)
            (mkPlace none (some [("postcode", "1:2"), ("street", "Main")])
              (some "Germany!"))
          = tokenize icuTestEnv (icuStateInit icuTestEnv)
              (mkPlace none (some [("postcode", "1:2"), ("street", "Main")]) none)
      ∧ (([("postcode", "1:2"), ("street", "Main")] : List (String × String)).filter
            (fun kv => kv.1 != "postcode") ≠ [] →
          tokenize icuTestEnv (icuStateInit icuTestEnv)
              (mkPlace none (some [("postcode", "1:2"), ("street", "Main")])
                (some "Germany!"))
            = tokenize icuTestEnv (icuStateInit icuTestEnv)
                (mkPlace none
                  (some (([("postcode", "1:2"), ("street", "Main")] :
                      List (String × String)).filter (fun kv => kv.1 != "postcode")))
                  (some "Germany!")))
      ∧ ((∀ kv ∈ ([("postcode", "1:2"), ("street", "Main")] :
              List (String × String)), kv.1 = "postcode" → kv.2 = "1:2") →
          (∀ cc ns, DbCall.countryNames cc ns ∉
              (process_place legacyTestEnv (tokenCacheInit legacyTestEnv [])
                (mkPlace none (some [("postcode", "1:2"), ("street", "Main")])
                  (some "Germany!"))).2.2)
          ∧ (∀ p, DbCall.createPostcode p ∉
              (process_place legacyTestEnv (tokenCacheInit legacyTestEnv [])
                (mkPlace none (some [("postcode", "1:2"), ("street", "Main")])
                  (some "Germany!"))).2.2)
          ∧ process_place legacyTestEnv (tokenCacheInit legacyTestEnv [])
                (mkPlace none (some [("postcode", "1:2"), ("street", "Main")])
                  (some "Germany!"))
              = process_place legacyTestEnv (tokenCacheInit legacyTestEnv [])
                  (mkPlace none (some [("postcode", "1:2"), ("street", "Main")])
                    none)
          ∧ (([("postcode", "1:2"), ("street", "Main")] :
                List (String × String)).filter (fun kv => kv.1 != "postcode") ≠ [] →
              process_place legacyTestEnv (tokenCacheInit legacyTestEnv [])
                  (mkPlace none (some [("postcode", "1:2"), ("street", "Main")])
                    (some "Germany!"))
                = process_place legacyTestEnv (tokenCacheInit legacyTestEnv [])
                    (mkPlace none
                      (some (([("postcode", "1:2"), ("street", "Main")] :
                          List (String × String)).filter
                            (fun kv => kv.1 != "postcode")))
                      (some "Germany!"))))) :=
  ⟨⟨by decide, by decide, by decide⟩,
   claim_C9 icuTestEnv (icuStateInit icuTestEnv) legacyTestEnv
     (tokenCacheInit legacyTestEnv []) none
     [("postcode", "1:2"), ("street", "Main")] "Germany!" "1:2"
     (by decide) (by decide) (by decide)⟩

/-! #### Token-document key lemmas (claim C1) -/

/-- The `token_info` keys the spec recognises (ICU analyzer). -/
def icuTokenKeys : List String :=
  ["names", "hnr_search", "hnr_match", "street_match", "street_search",
   "place_match", "place_search", "addr"]

/-- The keys the legacy analyzer actually produces. -/
def legacyTokenKeys : List String :=
  ["names", "hnr_tokens", "hnr", "street", "place_search", "place_match", "addr"]

theorem icuNamesPart_keys_eq (env : IcuEnv) (place : Place) :
    (icuNamesPart env place).1.map Prod.fst
      = if truthy place.name = true then ["names"] else [] := by
  unfold icuNamesPart
  split
  · simp [odSet]
  · rename_i h
    have : truthy place.name = false := by simpa using h
    simp [this]

theorem icuHnrStage_keys_iff (env : IcuEnv) (address : List (String × String))
    (r : IcuRes) (k : String) :
    k ∈ (icuHnrStage env address r).token_info.map Prod.fst
      ↔ (k ∈ r.token_info.map Prod.fst
          ∨ ((address.filter (fun kv => isHnrKey kv.1)).map Prod.snd ≠ []
              ∧ (k = "hnr_search" ∨ k = "hnr_match"))) := by
  simp only [icuHnrStage]
  split
  · rename_i h
    rw [odSet_keys_mem, odSet_keys_mem]
    constructor
    · rintro (h1 | h1 | h1)
      · exact Or.inr ⟨h, Or.inr h1⟩
      · exact Or.inr ⟨h, Or.inl h1⟩
      · exact Or.inl h1
    · rintro (h1 | ⟨_, h1 | h1⟩)
      · exact Or.inr (Or.inr h1)
      · exact Or.inr (Or.inl h1)
      · exact Or.inl h1
  · rename_i h
    simp only [ne_eq, not_not] at h
    simp [h]

theorem icuStreetPlaceStage_keys_iff (env : IcuEnv)
    (address : List (String × String)) (atype : String) (r : IcuRes) (k : String) :
    k ∈ (icuStreetPlaceStage env address atype r).token_info.map Prod.fst
      ↔ (k ∈ r.token_info.map Prod.fst
          ∨ ((odGet address atype).isSome
              ∧ (k = atype ++ "_match" ∨ k = atype ++ "_search"))) := by
  unfold icuStreetPlaceStage
  cases h : odGet address atype with
  | none => simp
  | some v =>
      simp only [Option.isSome_some, true_and]
      rw [odSet_keys_mem, odSet_keys_mem]
      constructor
      · rintro (h1 | h1 | h1)
        · exact Or.inr (Or.inr h1)
        · exact Or.inr (Or.inl h1)
        · exact Or.inl h1
      · rintro (h1 | h1 | h1)
        · exact Or.inr (Or.inr h1)
        · exact Or.inr (Or.inl h1)
        · exact Or.inl h1

theorem icuAddrStage_keys_iff (env : IcuEnv) (address : List (String × String))
    (r : IcuRes) (k : String) :
    k ∈ (icuAddrStage env address r).token_info.map Prod.fst
      ↔ (k = "addr" ∨ k ∈ r.token_info.map Prod.fst) := by
  unfold icuAddrStage
  exact odSet_keys_mem _ _ _ _

theorem tokenize_noaddr (env : IcuEnv) (st : IcuState) (place : Place)
    (h : truthy place.address = false) :
    tokenize env st place
      = ⟨(icuNamesPart env place).1, st, (icuNamesPart env place).2⟩ := by
  unfold tokenize
  rw [if_neg (by simp [h])]

theorem process_place_noaddr (env : LegacyEnv) (cache : TokenCache) (place : Place)
    (h : truthy place.address = false) :
    process_place env cache place
      = ((legacyBase env cache place).data, (legacyBase env cache place).cache,
         (legacyBase env cache place).calls) := by
  unfold process_place
  rw [if_neg (by simp [h])]

theorem tokenize_keys_iff (env : IcuEnv) (st : IcuState) (place : Place)
    (htr : truthy place.address = true) (k : String) :
    k ∈ (tokenize env st place).token_info.map Prod.fst
      ↔ (k = "addr"
          ∨ ((odGet (place.address.getD []) "place").isSome
              ∧ (k = "place_match" ∨ k = "place_search"))
          ∨ ((odGet (place.address.getD []) "street").isSome
              ∧ (k = "street_match" ∨ k = "street_search"))
          ∨ (((place.address.getD []).filter (fun kv => isHnrKey kv.1)).map Prod.snd ≠ []
              ∧ (k = "hnr_search" ∨ k = "hnr_match"))
          ∨ (truthy place.name = true ∧ k = "names")) := by
  rw [tokenize_addr env st place htr]
  rw [icuAddrStage_keys_iff]
  rw [icuStreetPlaceStage_keys_iff]
  rw [icuStreetPlaceStage_keys_iff]
  rw [show (icuPostcodeStage (place.address.getD [])
        (icuHnrStage env (place.address.getD [])
          ⟨(icuNamesPart env place).1, st, (icuNamesPart env place).2⟩)).token_info
      = (icuHnrStage env (place.address.getD [])
          ⟨(icuNamesPart env place).1, st, (icuNamesPart env place).2⟩).token_info
    from icuPostcodeStage_token_info _ _]
  rw [icuHnrStage_keys_iff]
  rw [show ("place" ++ "_match" : String) = "place_match" from rfl,
      show ("place" ++ "_search" : String) = "place_search" from rfl,
      show ("street" ++ "_match" : String) = "street_match" from rfl,
      show ("street" ++ "_search" : String) = "street_search" from rfl]
  have hn : (⟨(icuNamesPart env place).1, st,
      (icuNamesPart env place).2⟩ : IcuRes).token_info.map Prod.fst
      = if truthy place.name = true then ["names"] else [] :=
    icuNamesPart_keys_eq env place
  rw [hn]
  by_cases hname : truthy place.name = true
  · rw [if_pos hname]
    simp only [hname, eq_self_iff_true, true_and, List.mem_singleton]
    tauto
  · rw [if_neg hname]
    have h0 : truthy place.name = false := by simpa using hname
    simp only [h0, Bool.false_eq_true, false_and, or_false, List.not_mem_nil]
    tauto

theorem add_housenumbers_keys (env : LegacyEnv) (cache : TokenCache)
    (data : List (String × TokVal)) (hnrs : List String) :
    ∀ k ∈ (add_housenumbers env cache data hnrs).1.map Prod.fst,
      k ∈ data.map Prod.fst ∨ k = "hnr_tokens" ∨ k = "hnr" := by
  intro k hk
  simp only [add_housenumbers] at hk
  split at hk
  · rcases (odSet_keys_mem _ _ _ _).mp hk with h | h
    · exact Or.inr (Or.inr h)
    · rcases (odSet_keys_mem _ _ _ _).mp h with h' | h'
      · exact Or.inr (Or.inl h')
      · exact Or.inl h'
  · rcases (odSet_keys_mem _ _ _ _).mp hk with h | h
    · exact Or.inr (Or.inr h)
    · rcases (odSet_keys_mem _ _ _ _).mp h with h' | h'
      · exact Or.inr (Or.inl h')
      · exact Or.inl h'

theorem legacyHnrFinish_keys (env : LegacyEnv) (acc : LegacyAcc) :
    ∀ k ∈ (legacyHnrFinish env acc).data.map Prod.fst,
      k ∈ acc.data.map Prod.fst ∨ k = "hnr_tokens" ∨ k = "hnr" := by
  intro k hk
  unfold legacyHnrFinish at hk
  split at hk
  · exact add_housenumbers_keys env acc.cache acc.data acc.hnrs k hk
  · exact Or.inl hk

/-- Claim C1 (counterexample): the legacy analyzer's `process_place` emits
the key `street` (and uses `hnr_tokens`/`hnr` instead of
`hnr_search`/`hnr_match`), so its `token_info` keys are not drawn from the
claimed set. -/
theorem claim_C1_counterexample :
    (process_place legacyTestEnv (tokenCacheInit legacyTestEnv [])
        (mkPlace none (some [("street", "Main")]) none)).1.map Prod.fst = ["street"]
    ∧ "street" ∉ icuTokenKeys :=
  ⟨rfl, by decide⟩

/-- Claim C1 (amended): the ICU analyzer's `tokenize` produces only keys
from `{names, hnr_search, hnr_match, street_match, street_search,
place_match, place_search, addr}`, and a key is present exactly when the
place carries the corresponding attribute (`names` iff the name map is
non-empty; the `hnr` pair iff some housenumber-like address key is
present; the street/place pairs iff the address has that key; `addr` iff
the address is non-empty).  The legacy analyzer's `process_place` instead
draws its keys from `{names, hnr_tokens, hnr, street, place_search,
place_match, addr}`. -/
theorem claim_C1 (envI : IcuEnv) (st : IcuState) (envL : LegacyEnv)
    (cache : TokenCache) (place : Place) :
    (∀ k ∈ (tokenize envI st place).token_info.map Prod.fst, k ∈ icuTokenKeys)
    ∧ ("names" ∈ (tokenize envI st place).token_info.map Prod.fst
        ↔ truthy place.name = true)
    ∧ ("hnr_search" ∈ (tokenize envI st place).token_info.map Prod.fst
        ↔ truthy place.address = true
          ∧ ((place.address.getD []).filter (fun kv => isHnrKey kv.1)).map Prod.snd ≠ [])
    ∧ ("hnr_match" ∈ (tokenize envI st place).token_info.map Prod.fst
        ↔ truthy place.address = true
          ∧ ((place.address.getD []).filter (fun kv => isHnrKey kv.1)).map Prod.snd ≠ [])
    ∧ ("street_match" ∈ (tokenize envI st place).token_info.map Prod.fst
        ↔ truthy place.address = true
          ∧ (odGet (place.address.getD []) "street").isSome = true)
    ∧ ("street_search" ∈ (tokenize envI st place).token_info.map Prod.fst
        ↔ truthy place.address = true
          ∧ (odGet (place.address.getD []) "street").isSome = true)
    ∧ ("place_match" ∈ (tokenize envI st place).token_info.map Prod.fst
        ↔ truthy place.address = true
          ∧ (odGet (place.address.getD []) "place").isSome = true)
    ∧ ("place_search" ∈ (tokenize envI st place).token_info.map Prod.fst
        ↔ truthy place.address = true
          ∧ (odGet (place.address.getD []) "place").isSome = true)
    ∧ ("addr" ∈ (tokenize envI st place).token_info.map Prod.fst
        ↔ truthy place.address = true)
    ∧ (∀ k ∈ (process_place envL cache place).1.map Prod.fst, k ∈ legacyTokenKeys) := by
  have hlegacy : ∀ k ∈ (process_place envL cache place).1.map Prod.fst,
      k ∈ legacyTokenKeys := by
    intro k hk
    by_cases haddr : truthy place.address = true
    · rw [process_place_addr envL cache place haddr] at hk
      simp only at hk
      rcases legacyAddrFinish_keys envL _ k hk with h | h
      · rcases legacyHnrFinish_keys envL _ k h with h' | h' | h'
        · rcases (legacy_fold_char envL (place.address.getD [])
            (legacyBase envL cache place)).2.2.2 k h' with h'' | h'' | h'' | h''
          · rw [legacyBase_keys envL cache place k h'']
            decide
          · subst h''; decide
          · subst h''; decide
          · subst h''; decide
        · subst h'; decide
        · subst h'; decide
      · subst h; decide
    · have haddr' : truthy place.address = false := by simpa using haddr
      rw [process_place_noaddr envL cache place haddr'] at hk
      simp only at hk
      rw [legacyBase_keys envL cache place k hk]
      decide
  by_cases haddr : truthy place.address = true
  · have hiff := tokenize_keys_iff envI st place haddr
    refine ⟨?_, ?_, ?_, ?_, ?_, ?_, ?_, ?_, ?_, hlegacy⟩
    · intro k hk
      rcases (hiff k).mp hk with h | ⟨_, h | h⟩ | ⟨_, h | h⟩ | ⟨_, h | h⟩ | ⟨_, h⟩ <;>
        · subst h; decide
    · rw [hiff "names"]; simp [haddr]
    · rw [hiff "hnr_search"]; simp [haddr]
    · rw [hiff "hnr_match"]; simp [haddr]
    · rw [hiff "street_match"]; simp [haddr]
    · rw [hiff "street_search"]; simp [haddr]
    · rw [hiff "place_match"]; simp [haddr]
    · rw [hiff "place_search"]; simp [haddr]
    · rw [hiff "addr"]; simp [haddr]
  · have haddr' : truthy place.address = false := by simpa using haddr
    have hno := tokenize_noaddr envI st place haddr'
    have hkeys : (tokenize envI st place).token_info.map Prod.fst
        = if truthy place.name = true then ["names"] else [] := by
      rw [hno]
      exact icuNamesPart_keys_eq envI place
    refine ⟨?_, ?_, ?_, ?_, ?_, ?_, ?_, ?_, ?_, hlegacy⟩
    · intro k hk
      rw [hkeys] at hk
      split at hk
      · rw [List.mem_singleton.mp hk]; decide
      · simp at hk
    all_goals
      rw [hkeys]
      by_cases hname : truthy place.name = true
      · rw [if_pos hname]
        simp [hname, haddr']
      · rw [if_neg hname]
        have h0 : truthy place.name = false := by simpa using hname
        simp [h0, haddr']

/-! ### `_get_street_place_terms` caching (claim C6) -/

/-- A street/place cache is coherent when every stored entry holds exactly
the pair that `_get_street_place_terms`'s body computes for its key. -/
def coherentSP (env : IcuEnv) (c : List (String × (String × String))) : Prop :=
  ∀ kv ∈ c, kv.2 = (street_place_terms_body env kv.1).1

/-- A sequence of `_get_street_place_terms` calls: the returned pairs, the
final analyzer state, and the number of calls on which the wrapped body
actually ran. -/
def runSP (env : IcuEnv) (st : IcuState) : List String →
    List (String × String) × IcuState × Nat
  | [] => ([], st, 0)
  | n :: rest =>
      let t := get_street_place_terms env st n
      let r := runSP env t.2.1 rest
      (t.1 :: r.1, r.2.1, t.2.2.1.toNat + r.2.2)

theorem keys_eraseP_map {α β : Type} [DecidableEq α] (l : List (α × β)) (k : α) :
    (l.map Prod.fst).eraseP (fun x => decide (x = k))
      = (l.eraseP (fun e => decide (e.1 = k))).map Prod.fst := by
  rw [List.eraseP_map]
  rfl

theorem not_mem_eraseP_self {α : Type} [DecidableEq α] (l : List α) (k : α)
    (hnd : l.Nodup) : k ∉ l.eraseP (fun x => decide (x = k)) := by
  induction l with
  | nil => simp
  | cons a t ih =>
      rcases List.nodup_cons.mp hnd with ⟨ha, ht⟩
      by_cases hak : a = k
      · subst hak
        rw [List.eraseP_cons_of_pos (by simp)]
        exact ha
      · rw [List.eraseP_cons_of_neg (by simpa using hak)]
        intro hmem
        rcases List.mem_cons.mp hmem with h | h
        · exact hak h.symm
        · exact ih ht h

theorem spStep (env : IcuEnv) (st : IcuState) (n : String)
    (hcoh : coherentSP env st.street_place_cache)
    (hnd : (st.street_place_cache.map Prod.fst).Nodup)
    (hlen : n ∉ st.street_place_cache.map Prod.fst →
      st.street_place_cache.length < 256) :
    (get_street_place_terms env st n).1 = (street_place_terms_body env n).1
    ∧ coherentSP env (get_street_place_terms env st n).2.1.street_place_cache
    ∧ ((get_street_place_terms env st n).2.1.street_place_cache.map Prod.fst).Nodup
    ∧ (∀ k, k ∈ (get_street_place_terms env st n).2.1.street_place_cache.map Prod.fst
          ↔ k ∈ st.street_place_cache.map Prod.fst ∨ k = n)
    ∧ (get_street_place_terms env st n).2.1.street_place_cache.length
        = st.street_place_cache.length
          + (get_street_place_terms env st n).2.2.1.toNat := by
  cases hg : odGet st.street_place_cache n with
  | some p =>
      have hmem := odGet_mem _ _ _ hg
      have hkey : n ∈ st.street_place_cache.map Prod.fst :=
        List.mem_map.mpr ⟨(n, p), hmem, rfl⟩
      have hp : p = (street_place_terms_body env n).1 := hcoh (n, p) hmem
      have hres1 : (get_street_place_terms env st n).1 = p := by
        simp only [get_street_place_terms, flruGet, hg]
      have hres2 : (get_street_place_terms env st n).2.1.street_place_cache
          = st.street_place_cache.eraseP (fun e => decide (e.1 = n)) ++ [(n, p)] := by
        simp only [get_street_place_terms, flruGet, hg]
        unfold odMoveToEnd
        rw [hg]
      have hres3 : (get_street_place_terms env st n).2.2.1 = false := by
        simp only [get_street_place_terms, flruGet, hg]
      refine ⟨hres1.trans hp, ?_, ?_, ?_, ?_⟩
      · intro kv hkv
        rw [hres2] at hkv
        rcases List.mem_append.mp hkv with h | h
        · exact hcoh kv ((List.eraseP_sublist _).subset h)
        · rw [List.mem_singleton.mp h]
          exact hp
      · rw [hres2, List.map_append, ← keys_eraseP_map]
        rw [List.nodup_append]
        refine ⟨hnd.sublist (List.eraseP_sublist _), List.nodup_singleton _, ?_⟩
        intro x hx hx'
        rw [List.mem_singleton.mp hx'] at hx
        exact not_mem_eraseP_self _ _ hnd hx
      · intro k
        rw [hres2, List.map_append, ← keys_eraseP_map]
        constructor
        · intro hk
          rcases List.mem_append.mp hk with h | h
          · exact Or.inl ((List.eraseP_sublist _).subset h)
          · exact Or.inr (List.mem_singleton.mp h)
        · intro hk
          by_cases hkn : k = n
          · exact List.mem_append.mpr (Or.inr (List.mem_singleton.mpr hkn))
          · rcases hk with h | h
            · exact List.mem_append.mpr
                (Or.inl ((List.mem_eraseP_of_neg (by simpa using hkn)).mpr h))
            · exact absurd h hkn
      · have hlen1 : (st.street_place_cache.eraseP
            (fun e => decide (e.1 = n))).length + 1
            = st.street_place_cache.length :=
          List.length_eraseP_add_one hmem (by simp)
        rw [hres2, hres3]
        simp only [List.length_append, List.length_singleton, Bool.toNat_false]
        omega
  | none =>
      have hnotm : n ∉ st.street_place_cache.map Prod.fst :=
        (odGet_eq_none_iff _ _).mp hg
      have hlt : st.street_place_cache.length < 256 := hlen hnotm
      have hres1 : (get_street_place_terms env st n).1
          = (street_place_terms_body env n).1 := by
        simp only [get_street_place_terms, flruGet, hg]
      have hres2 : (get_street_place_terms env st n).2.1.street_place_cache
          = st.street_place_cache ++ [(n, (street_place_terms_body env n).1)] := by
        simp only [get_street_place_terms, flruGet, hg]
        rw [if_neg (by omega : ¬ 256 ≤ st.street_place_cache.length)]
      have hres3 : (get_street_place_terms env st n).2.2.1 = true := by
        simp only [get_street_place_terms, flruGet, hg]
      refine ⟨hres1, ?_, ?_, ?_, ?_⟩
      · intro kv hkv
        rw [hres2] at hkv
        rcases List.mem_append.mp hkv with h | h
        · exact hcoh kv h
        · rw [List.mem_singleton.mp h]
      · rw [hres2, List.map_append, List.nodup_append]
        refine ⟨hnd, List.nodup_singleton _, ?_⟩
        intro x hx hx'
        rw [List.mem_singleton.mp hx'] at hx
        exact hnotm hx
      · intro k
        rw [hres2, List.map_append]
        simp [List.mem_append]
      · rw [hres2, hres3]
        simp only [List.length_append, List.length_singleton, Bool.toNat_true]

theorem runSP_spec (env : IcuEnv) (ns : List String) :
    ∀ st : IcuState,
      coherentSP env st.street_place_cache →
      (st.street_place_cache.map Prod.fst).Nodup →
      (st.street_place_cache.map Prod.fst ++ ns).toFinset.card ≤ 256 →
      (runSP env st ns).1 = ns.map (fun n => (street_place_terms_body env n).1)
      ∧ coherentSP env (runSP env st ns).2.1.street_place_cache
      ∧ ((runSP env st ns).2.1.street_place_cache.map Prod.fst).Nodup
      ∧ (∀ k, k ∈ (runSP env st ns).2.1.street_place_cache.map Prod.fst
            ↔ k ∈ st.street_place_cache.map Prod.fst ∨ k ∈ ns)
      ∧ (runSP env st ns).2.2 + st.street_place_cache.length
          = (st.street_place_cache.map Prod.fst ++ ns).toFinset.card := by
  induction ns with
  | nil =>
      intro st hcoh hnd hcard
      refine ⟨rfl, hcoh, hnd, ?_, ?_⟩
      · intro k
        simp [runSP]
      · have hc : (st.street_place_cache.map Prod.fst).toFinset.card
            = st.street_place_cache.length := by
          rw [List.toFinset_card_of_nodup hnd, List.length_map]
        simp [runSP, hc]
  | cons n rest ih =>
      intro st hcoh hnd hcard
      have hlenpre : n ∉ st.street_place_cache.map Prod.fst →
          st.street_place_cache.length < 256 := by
        intro hnotm
        have hsub : (st.street_place_cache.map Prod.fst).toFinset
            ⊆ (st.street_place_cache.map Prod.fst ++ n :: rest).toFinset := by
          intro x hx
          simp only [List.mem_toFinset, List.mem_append] at hx ⊢
          exact Or.inl (List.mem_toFinset.mp (by simpa using hx))
        have hss : (st.street_place_cache.map Prod.fst).toFinset
            ⊂ (st.street_place_cache.map Prod.fst ++ n :: rest).toFinset :=
          (Finset.ssubset_iff_of_subset hsub).mpr
            ⟨n, by simp, by simpa using hnotm⟩
        have hlt := Finset.card_lt_card hss
        have hc : (st.street_place_cache.map Prod.fst).toFinset.card
            = st.street_place_cache.length := by
          rw [List.toFinset_card_of_nodup hnd, List.length_map]
        omega
      obtain ⟨hval, hcoh', hnd', hmem', hlen'⟩ := spStep env st n hcoh hnd hlenpre
      have hsets : ((get_street_place_terms env st n).2.1.street_place_cache.map
            Prod.fst ++ rest).toFinset
          = (st.street_place_cache.map Prod.fst ++ n :: rest).toFinset := by
        ext x
        simp only [List.mem_toFinset, List.mem_append, List.mem_cons, hmem' x]
        tauto
      obtain ⟨ih1, ih2, ih3, ih4, ih5⟩ := ih (get_street_place_terms env st n).2.1
        hcoh' hnd' (by rw [hsets]; exact hcard)
      refine ⟨?_, ?_, ?_, ?_, ?_⟩
      · simp only [runSP, List.map_cons]
        rw [hval, ih1]
      · simpa only [runSP] using ih2
      · simpa only [runSP] using ih3
      · intro k
        have h4 := ih4 k
        simp only [runSP]
        rw [h4, hmem' k]
        simp only [List.mem_cons]
        tauto
      · simp only [runSP]
        rw [← hsets, ← ih5]
        omega

/-- Claim C6 (counterexample): with every database function constant
(`word_ids_from_name` always `wids`, `getorcreate_name_id`'s array always
`narr`), tokenizing `\x7baddress: \x7bstreet: Main\x7d\x7d` stores `narr`
— not the `word_ids_from_name` result `wids` — under `street_search`, and
`wids` under `street_match`: the claim's search/match assignment is the
reverse of the code's. -/
theorem claim_C6_counterexample :
    odGet (tokenize icuTestEnv (icuStateInit icuTestEnv)
        (mkPlace none (some [("street", "Main")]) none)).token_info "street_search"
      = some (.str "narr")
    ∧ odGet (tokenize icuTestEnv (icuStateInit icuTestEnv)
        (mkPlace none (some [("street", "Main")]) none)).token_info "street_match"
      = some (.str "wids")
    ∧ icuTestEnv.word_ids_from_name (make_standard_word icuTestEnv "Main") = "wids"
    ∧ icuTestEnv.name_id_array (make_standard_word icuTestEnv "Main") = "narr"
    ∧ ("narr" : String) ≠ "wids" :=
  ⟨rfl, rfl, rfl, rfl, by decide⟩

/-- Claim C6 (amended): for `street` and `place` the analyzer stores the
result of `word_ids_from_name` as the *match* term and
`ARRAY[getorcreate_name_id(make_standard_name(name), '')]` as the *search*
term — the claim has the two assignments swapped — and
`_get_street_place_terms` computes the pair at most once per distinct
value: over any call sequence with at most 256 distinct values from a
fresh cache, every call returns the body's pair and the body runs exactly
once per distinct value. -/
theorem claim_C6 (env : IcuEnv) (address : List (String × String))
    (atype v : String) (r : IcuRes)
    (hat : atype = "street" ∨ atype = "place")
    (hv : odGet address atype = some v)
    (hcoh : coherentSP env r.st.street_place_cache)
    (hnorm : make_standard_word env v ≠ "") :
    odGet (icuStreetPlaceStage env address atype r).token_info (atype ++ "_match")
      = some (.str (env.word_ids_from_name (make_standard_word env v)))
    ∧ odGet (icuStreetPlaceStage env address atype r).token_info (atype ++ "_search")
      = some (.str (env.name_id_array (make_standard_word env v)))
    ∧ ∀ ns : List String, ns.toFinset.card ≤ 256 →
        (runSP env (icuStateInit env) ns).1
          = ns.map (fun n => (street_place_terms_body env n).1)
        ∧ (runSP env (icuStateInit env) ns).2.2 = ns.toFinset.card := by
  have hval : (get_street_place_terms env r.st v).1
      = (env.word_ids_from_name (make_standard_word env v),
         env.name_id_array (make_standard_word env v)) := by
    cases hg : odGet r.st.street_place_cache v with
    | some p =>
        have hp : p = (street_place_terms_body env v).1 :=
          hcoh (v, p) (odGet_mem _ _ _ hg)
        simp only [get_street_place_terms, flruGet, hg]
        rw [hp]
        unfold street_place_terms_body
        rw [if_neg hnorm]
    | none =>
        simp only [get_street_place_terms, flruGet, hg]
        unfold street_place_terms_body
        rw [if_neg hnorm]
  have hstage : (icuStreetPlaceStage env address atype r).token_info
      = odSet (odSet r.token_info (atype ++ "_match")
          (.str (get_street_place_terms env r.st v).1.1))
          (atype ++ "_search") (.str (get_street_place_terms env r.st v).1.2) := by
    simp only [icuStreetPlaceStage, hv]
  refine ⟨?_, ?_, ?_⟩
  · rw [hstage, hval]
    rcases hat with rfl | rfl
    · rw [odGet_odSet_ne _ _ _ _
        (by decide : ("street" ++ "_search" : String) ≠ "street" ++ "_match")]
      exact odGet_odSet_self _ _ _
    · rw [odGet_odSet_ne _ _ _ _
        (by decide : ("place" ++ "_search" : String) ≠ "place" ++ "_match")]
      exact odGet_odSet_self _ _ _
  · rw [hstage, hval]
    exact odGet_odSet_self _ _ _
  · intro ns hns
    have hempty : (icuStateInit env).street_place_cache = [] := rfl
    obtain ⟨h1, _, _, _, h5⟩ := runSP_spec env ns (icuStateInit env)
      (by rw [hempty]; intro kv hkv; exact absurd hkv (List.not_mem_nil kv))
      (by rw [hempty]; exact List.nodup_nil)
      (by rw [hempty]; simpa using hns)
    refine ⟨h1, ?_⟩
    rw [hempty] at h5
    simpa using h5

/-- Claim C6 witness: a concrete street lookup against a fresh analyzer
state, and a three-call sequence with two distinct values running the body
twice. -/
theorem claim_C6_witness :
    odGet (icuStreetPlaceStage icuTestEnv [("street", "x")] "street"
        ⟨[], icuStateInit icuTestEnv, []⟩).token_info "street_match"
      = some (.str "wids")
    ∧ odGet (icuStreetPlaceStage icuTestEnv [("street", "x")] "street"
        ⟨[], icuStateInit icuTestEnv, []⟩).token_info "street_search"
      = some (.str "narr")
    ∧ (runSP icuTestEnv (icuStateInit icuTestEnv) ["a", "b", "a"]).2.2 = 2 := by
  have h := claim_C6 icuTestEnv [("street", "x")] "street" "x"
      ⟨[], icuStateInit icuTestEnv, []⟩ (Or.inl rfl) rfl
      (by intro kv hkv; exact absurd hkv (List.not_mem_nil kv)) (by decide)
  refine ⟨h.1, h.2.1, ?_⟩
  have h2 := (h.2.2 ["a", "b", "a"] (by decide)).2
  rw [h2]
  decide

/-! ### `update_special_phrases` as a set replacement (claim C4) -/

theorem operReadback_ne_empty (o : Option String) : operReadback o ≠ "" := by
  cases o with
  | none => decide
  | some s =>
      show (if s = "" then "-" else s) ≠ ""
      by_cases h : s = ""
      · rw [if_pos h]; decide
      · rw [if_neg h]; exact h

theorem existingPhrases_mem (table : List WordRow)
    (t : Option String × Option String × Option String × String) :
    t ∈ existingPhrases table
      ↔ ∃ r ∈ table, inPhrasePartition r = true ∧ toPhraseTuple r = t := by
  simp only [existingPhrases, List.mem_dedup, List.mem_map, List.mem_filter]
  constructor
  · rintro ⟨r, ⟨hr, hp⟩, ht⟩
    exact ⟨r, hr, hp, ht⟩
  · rintro ⟨r, hr, hp, ht⟩
    exact ⟨r, ⟨hr, hp⟩, ht⟩

theorem existingPhrases_oper_ne (table : List WordRow)
    (t : Option String × Option String × Option String × String)
    (h : t ∈ existingPhrases table) : t.2.2.2 ≠ "" := by
  rcases (existingPhrases_mem table t).mp h with ⟨r, _, _, ht⟩
  rw [← ht]
  exact operReadback_ne_empty r.oper

theorem sqlEqOpt_eq (a b : Option String) (h : sqlEqOpt a b = true) : a = b := by
  unfold sqlEqOpt at h
  cases a <;> cases b <;> simp_all

theorem deleteMatches_eq (t : Option String × Option String × Option String × String)
    (r : WordRow) (hne : t.2.2.2 ≠ "") (h : deleteMatches t r = true) :
    toPhraseTuple r = t := by
  obtain ⟨t1, t2, t3, t4⟩ := t
  unfold deleteMatches at h
  simp only [Bool.and_eq_true, Bool.or_eq_true, beq_iff_eq] at h
  obtain ⟨⟨⟨hw, hc⟩, hty⟩, hop⟩ := h
  have hw' := sqlEqOpt_eq _ _ hw
  have hc' := sqlEqOpt_eq _ _ hc
  have hty' := sqlEqOpt_eq _ _ hty
  unfold toPhraseTuple
  rw [hw', hc', hty']
  rcases hop with ⟨h1, h2⟩ | h2
  · rw [h2]
    unfold operReadback
    rw [h1]
  · have h2' := sqlEqOpt_eq _ _ h2
    rw [h2']
    show (t1, t2, t3, if t4 = "" then "-" else t4) = (t1, t2, t3, t4)
    rw [if_neg (by simpa using hne)]

theorem deleteMatches_self (r : WordRow) (hw : r.word.isSome = true)
    (hc : r.cls.isSome = true) (ht : r.typ.isSome = true)
    (hop : r.oper ≠ some "") :
    deleteMatches (toPhraseTuple r) r = true := by
  obtain ⟨w, hw⟩ := Option.isSome_iff_exists.mp hw
  obtain ⟨c, hc⟩ := Option.isSome_iff_exists.mp hc
  obtain ⟨ty, ht⟩ := Option.isSome_iff_exists.mp ht
  cases hro : r.oper with
  | none =>
      simp [deleteMatches, toPhraseTuple, hw, hc, ht, hro, sqlEqOpt, operReadback]
  | some s =>
      have hs : s ≠ "" := fun h => hop (by rw [hro, h])
      simp [deleteMatches, toPhraseTuple, hw, hc, ht, hro, sqlEqOpt, operReadback, hs]

theorem phraseRow_tuple (msn : String → String) (p : SpecialPhrase)
    (hop : p.op = "-" ∨ p.op = "in" ∨ p.op = "near") :
    toPhraseTuple (phraseRow msn p) = phraseTuple p := by
  rcases hop with h | h | h <;>
    simp [toPhraseTuple, phraseRow, phraseTuple, operReadback, h]

theorem phraseRow_partition (msn : String → String) (p : SpecialPhrase)
    (hpart : ¬(p.cls = "place" ∧ (p.typ = "house" ∨ p.typ = "postcode"))) :
    inPhrasePartition (phraseRow msn p) = true := by
  push_neg at hpart
  simp only [inPhrasePartition, phraseRow]
  by_cases hc : p.cls = "place"
  · obtain ⟨h1, h2⟩ := hpart hc
    simp [h1, h2]
  · simp [hc]

theorem normPhrases_attrs (normalize : String → String)
    (phrases : List SpecialPhrase) (p : SpecialPhrase)
    (hp : p ∈ normPhrases normalize phrases) :
    ∃ q ∈ phrases, p.cls = q.cls ∧ p.typ = q.typ ∧ p.op = q.op := by
  unfold normPhrases at hp
  rw [List.mem_dedup, List.mem_map] at hp
  obtain ⟨q, hq, hpq⟩ := hp
  exact ⟨q, hq, by rw [← hpq], by rw [← hpq], by rw [← hpq]⟩

theorem usp_survives (normalize msn : String → String)
    (phrases : List SpecialPhrase) (table : List WordRow) (r : WordRow)
    (hrt : toPhraseTuple r ∈ (normPhrases normalize phrases).map phraseTuple) :
    ((existingPhrases table).filter
        (fun t => decide (t ∉ (normPhrases normalize phrases).map phraseTuple))).any
      (fun t => deleteMatches t r) = false := by
  rw [List.any_eq_false]
  intro t' ht'
  rw [List.mem_filter] at ht'
  obtain ⟨htE, htN⟩ := ht'
  intro hdm
  have heq := deleteMatches_eq t' r (existingPhrases_oper_ne table t' htE) hdm
  rw [heq] at hrt
  exact (decide_eq_true_eq.mp htN) hrt

theorem usp_mem (normalize msn : String → String)
    (phrases : List SpecialPhrase) (table : List WordRow)
    (hop : ∀ p ∈ phrases, p.op = "-" ∨ p.op = "in" ∨ p.op = "near")
    (hpart : ∀ p ∈ phrases, ¬(p.cls = "place" ∧ (p.typ = "house" ∨ p.typ = "postcode")))
    (hwf : ∀ r ∈ table, inPhrasePartition r = true →
      r.word.isSome = true ∧ r.cls.isSome = true ∧ r.typ.isSome = true
        ∧ r.oper ≠ some "") :
    ∀ t, t ∈ existingPhrases (update_special_phrases normalize msn phrases table)
      ↔ t ∈ (normPhrases normalize phrases).map phraseTuple := by
  have hopN : ∀ p ∈ normPhrases normalize phrases,
      p.op = "-" ∨ p.op = "in" ∨ p.op = "near" := by
    intro p hp
    obtain ⟨q, hq, _, _, hqop⟩ := normPhrases_attrs normalize phrases p hp
    rw [hqop]
    exact hop q hq
  have hpartN : ∀ p ∈ normPhrases normalize phrases,
      ¬(p.cls = "place" ∧ (p.typ = "house" ∨ p.typ = "postcode")) := by
    intro p hp
    obtain ⟨q, hq, hqc, hqt, _⟩ := normPhrases_attrs normalize phrases p hp
    rw [hqc, hqt]
    exact hpart q hq
  intro t
  rw [existingPhrases_mem]
  constructor
  · rintro ⟨r, hr, hpartr, rfl⟩
    simp only [update_special_phrases] at hr
    rw [List.mem_filter] at hr
    obtain ⟨hr1, hr2⟩ := hr
    rw [Bool.not_eq_true'] at hr2
    rcases List.mem_append.mp hr1 with hrtab | hradd
    · by_contra hnt
      have hE : toPhraseTuple r ∈ existingPhrases table :=
        (existingPhrases_mem table _).mpr ⟨r, hrtab, hpartr, rfl⟩
      have hD : toPhraseTuple r ∈ (existingPhrases table).filter
          (fun t => decide (t ∉ (normPhrases normalize phrases).map phraseTuple)) :=
        List.mem_filter.mpr ⟨hE, decide_eq_true hnt⟩
      obtain ⟨hw, hc, hty, hoper⟩ := hwf r hrtab hpartr
      exact absurd (deleteMatches_self r hw hc hty hoper)
        (by simpa using List.any_eq_false.mp hr2 _ hD)
    · rw [List.mem_map] at hradd
      obtain ⟨p, hpA, hpr⟩ := hradd
      rw [List.mem_filter] at hpA
      rw [← hpr, phraseRow_tuple msn p (hopN p hpA.1)]
      exact List.mem_map.mpr ⟨p, hpA.1, rfl⟩
  · intro ht
    obtain ⟨p, hpNP, hpt⟩ := List.mem_map.mp ht
    by_cases hE : phraseTuple p ∈ existingPhrases table
    · obtain ⟨r, hr, hpartr, htr⟩ := (existingPhrases_mem table _).mp hE
      refine ⟨r, ?_, hpartr, htr.trans hpt⟩
      simp only [update_special_phrases]
      rw [List.mem_filter]
      refine ⟨List.mem_append.mpr (Or.inl hr), ?_⟩
      rw [Bool.not_eq_true']
      exact usp_survives normalize msn phrases table r
        (by rw [htr]; exact List.mem_map.mpr ⟨p, hpNP, rfl⟩)
    · refine ⟨phraseRow msn p, ?_, phraseRow_partition msn p (hpartN p hpNP), ?_⟩
      · simp only [update_special_phrases]
        rw [List.mem_filter]
        constructor
        · exact List.mem_append.mpr (Or.inr (List.mem_map.mpr
            ⟨p, List.mem_filter.mpr ⟨hpNP, decide_eq_true hE⟩, rfl⟩))
        · rw [Bool.not_eq_true']
          exact usp_survives normalize msn phrases table (phraseRow msn p)
            (by rw [phraseRow_tuple msn p (hopN p hpNP)]
                exact List.mem_map.mpr ⟨p, hpNP, rfl⟩)
      · rw [phraseRow_tuple msn p (hopN p hpNP)]
        exact hpt

theorem usp_idem_of_mem (normalize msn : String → String)
    (phrases : List SpecialPhrase) (t2 : List WordRow)
    (hmem : ∀ t, t ∈ existingPhrases t2
      ↔ t ∈ (normPhrases normalize phrases).map phraseTuple) :
    update_special_phrases normalize msn phrases t2 = t2 := by
  have hadd : (normPhrases normalize phrases).filter
      (fun p => decide (phraseTuple p ∉ existingPhrases t2)) = [] := by
    rw [List.filter_eq_nil_iff]
    intro p hp
    simp only [decide_eq_true_eq, not_not]
    exact (hmem _).mpr (List.mem_map.mpr ⟨p, hp, rfl⟩)
  have hdel : (existingPhrases t2).filter
      (fun t => decide (t ∉ (normPhrases normalize phrases).map phraseTuple)) = [] := by
    rw [List.filter_eq_nil_iff]
    intro t ht
    simp only [decide_eq_true_eq, not_not]
    exact (hmem t).mp ht
  simp only [update_special_phrases]
  rw [hadd, hdel]
  simp

/-- Claim C4 (counterexample): the phrase `(x, place, house, -)` (operator
from the allowed set) inserts a row that the partition's SQL filter itself
excludes, so the phrase partition after `update_special_phrases` is empty
while the normalized phrase set is not. -/
theorem claim_C4_counterexample :
    existingPhrases (update_special_phrases id id
        [{ name := "x", cls := "place", typ := "house", op := "-" }] []) = []
    ∧ (normPhrases id
        [{ name := "x", cls := "place", typ := "house", op := "-" }]).map phraseTuple
      = [(some "x", some "place", some "house", "-")] :=
  ⟨rfl, rfl⟩

/-- Claim C4 (amended): for every phrase set whose operators are drawn
from `-`/`in`/`near` and whose class/type pairs themselves satisfy the
partition filter (class `place` with type `house`/`postcode` is reserved
and excluded), and every prior word table whose partition rows have
non-NULL word, class and type and no empty-string operator, one run of
`update_special_phrases` makes the phrase partition read back as exactly
the normalized phrases, and a second run with the same input is the
identity on the whole table. -/
theorem claim_C4 (normalize msn : String → String)
    (phrases : List SpecialPhrase) (table : List WordRow)
    (hop : ∀ p ∈ phrases, p.op = "-" ∨ p.op = "in" ∨ p.op = "near")
    (hpart : ∀ p ∈ phrases, ¬(p.cls = "place" ∧ (p.typ = "house" ∨ p.typ = "postcode")))
    (hwf : ∀ r ∈ table, inPhrasePartition r = true →
      r.word.isSome = true ∧ r.cls.isSome = true ∧ r.typ.isSome = true
        ∧ r.oper ≠ some "") :
    (∀ t, t ∈ existingPhrases (update_special_phrases normalize msn phrases table)
      ↔ t ∈ (normPhrases normalize phrases).map phraseTuple)
    ∧ update_special_phrases normalize msn phrases
        (update_special_phrases normalize msn phrases table)
      = update_special_phrases normalize msn phrases table := by
  have hmem := usp_mem normalize msn phrases table hop hpart hwf
  exact ⟨hmem, usp_idem_of_mem normalize msn phrases _ hmem⟩

/-- Claim C4 witness: a concrete run on the phrase `(bar, amenity, bar, -)`
over the empty table. -/
theorem claim_C4_witness :
    ((some "bar", some "amenity", some "bar", "-")
        ∈ existingPhrases (update_special_phrases id id
            [{ name := "bar", cls := "amenity", typ := "bar", op := "-" }] [])
      ↔ (some "bar", some "amenity", some "bar", "-")
        ∈ (normPhrases id
            [{ name := "bar", cls := "amenity", typ := "bar", op := "-" }]).map
              phraseTuple)
    ∧ update_special_phrases id id
        [{ name := "bar", cls := "amenity", typ := "bar", op := "-" }]
        (update_special_phrases id id
          [{ name := "bar", cls := "amenity", typ := "bar", op := "-" }] [])
      = update_special_phrases id id
          [{ name := "bar", cls := "amenity", typ := "bar", op := "-" }] [] := by
  have h := claim_C4 id id
    [{ name := "bar", cls := "amenity", typ := "bar", op := "-" }] []
    (by decide) (by decide) (by decide)
  exact ⟨h.1 _, h.2⟩

/-! ### Packaged `_LRU` invariant (claim C10) -/

/-- Claim C10: for every `_LRU` instance (with a positive configured
`maxsize`, as all instances in the code have), after any sequence of `get`
operations the number of stored entries never exceeds the maximum of the
configured `maxsize` and the number of seeded entries, and the effective
bound never changes.  Annotating entries with ghost recency stamps (stamp
= time of insertion or last hit) shows the eviction order: the annotated
run projects onto the real run, stamps increase strictly towards the back
— so the front entry is always the least recently inserted or accessed —
and a `get` that misses while the cache is at capacity drops exactly the
front entry before storing the new value. -/
theorem claim_C10 {K V : Type} [DecidableEq K] (m : Nat)
    (seed : Option (List (K × Option V))) (ops : List (K × Option V))
    (k : K) (g : K → Option V) (hm : 0 < m) :
    (lruRun (lruInit m seed) ops).data.length ≤ max m (seed.getD []).length
    ∧ (lruRun (lruInit m seed) ops).maxsize = (lruInit m seed : LRU K V).maxsize
    ∧ (lruRunS (lruInit m seed : LRU K V).maxsize
          (stampSeed (seed.getD []) 0) (seed.getD []).length ops).map Prod.fst
        = (lruRun (lruInit m seed) ops).data
    ∧ (∀ h0 ∈ (lruRunS (lruInit m seed : LRU K V).maxsize
          (stampSeed (seed.getD []) 0) (seed.getD []).length ops).head?,
        ∀ e ∈ lruRunS (lruInit m seed : LRU K V).maxsize
          (stampSeed (seed.getD []) 0) (seed.getD []).length ops, h0.2 ≤ e.2)
    ∧ ((odGet (lruRun (lruInit m seed) ops).data k = none
          ∨ odGet (lruRun (lruInit m seed) ops).data k = some none) →
        (lruRun (lruInit m seed) ops).maxsize
            ≤ (lruRun (lruInit m seed) ops).data.length →
        (lruGet (lruRun (lruInit m seed) ops) k g).2.1.data
          = odSet (lruRun (lruInit m seed) ops).data.tail k (g k)) := by
  have hd : (lruInit m seed : LRU K V).data = seed.getD [] := rfl
  have hfacts : 0 < (lruInit m seed : LRU K V).maxsize
      ∧ (lruInit m seed : LRU K V).data.length ≤ (lruInit m seed : LRU K V).maxsize
      ∧ (lruInit m seed : LRU K V).maxsize ≤ max m (seed.getD []).length := by
    by_cases hcond : seed.isSome = true
        ∧ m < (seed.getD ([] : List (K × Option V))).length
    · have hmx : (lruInit m seed : LRU K V).maxsize = (seed.getD []).length := by
        simp only [lruInit]
        rw [if_pos hcond]
      refine ⟨?_, ?_, ?_⟩
      · rw [hmx]
        exact lt_trans hm hcond.2
      · rw [hmx, hd]
      · rw [hmx]
        exact le_max_right _ _
    · have hmx : (lruInit m seed : LRU K V).maxsize = m := by
        simp only [lruInit]
        rw [if_neg hcond]
      refine ⟨?_, ?_, ?_⟩
      · rw [hmx]
        exact hm
      · rw [hmx, hd]
        cases seed with
        | none => simp
        | some s =>
            have hnlt : ¬ m < ((some s).getD ([] : List (K × Option V))).length :=
              fun hlt => hcond ⟨rfl, hlt⟩
            exact Nat.le_of_not_lt hnlt
      · rw [hmx]
        exact le_max_left _ _
  obtain ⟨hpos, hdl, hle⟩ := hfacts
  obtain ⟨hbound, hmaxeq⟩ := lruRun_length (lruInit m seed) ops hpos hdl
  have hproj : (lruRunS (lruInit m seed : LRU K V).maxsize
        (stampSeed (seed.getD []) 0) (seed.getD []).length ops).map Prod.fst
      = (lruRun (lruInit m seed) ops).data := by
    rw [lruRunS_map, stampSeed_map, ← hd]
  have hpair := lruRunS_invariant (lruInit m seed : LRU K V).maxsize ops
    (stampSeed (seed.getD []) 0) (seed.getD []).length
    (stampSeed_pairwise (seed.getD []) 0)
    (by simpa using stampSeed_bound (seed.getD []) 0)
  refine ⟨hbound.trans hle, hmaxeq, hproj, pairwise_head_min _ hpair, ?_⟩
  intro hmiss hfull
  exact lruGet_evicts_head _ k g hmiss hfull

/-- Claim C10 witness: a two-entry seed at `maxsize` 2; a `get` of an
absent key drops the front (least recent) entry and stores the new one at
the back. -/
theorem claim_C10_witness :
    ((lruRun (lruInit 2 (some [((1 : Nat), some (10 : Nat)), (2, some 20)]))
        []).data.length ≤ max 2 2
    ∧ (lruGet (lruRun (lruInit 2
          (some [((1 : Nat), some (10 : Nat)), (2, some 20)])) [])
        3 (fun _ => some 30)).2.1.data
      = odSet (lruRun (lruInit 2
            (some [((1 : Nat), some (10 : Nat)), (2, some 20)])) []).data.tail
          3 (some 30))
    ∧ (lruGet (lruRun (lruInit 2
          (some [((1 : Nat), some (10 : Nat)), (2, some 20)])) [])
        3 (fun _ => some 30)).2.1.data = [(2, some 20), (3, some 30)] := by
  have h := claim_C10 (K := Nat) (V := Nat) 2
    (some [(1, some 10), (2, some 20)]) [] 3 (fun _ => some 30) (by decide)
  refine ⟨⟨h.1, h.2.2.2.2 (Or.inl rfl) (by decide)⟩, ?_⟩
  rw [h.2.2.2.2 (Or.inl rfl) (by decide)]
  rfl

end Nominatim